import Mathlib

/-!
# promise-streams: a verification development

A shallow embedding of the promise-streams library (`src/index.d.ts` plus its
specification).  The runtime implementation is not part of the repository
snapshot, so the operational parts are modelled from the specification: the
bounded-concurrency promise relay underlying `through`/`map`/`filter`/`reduce`
is embedded as an executable state machine driven by an explicit settlement
schedule, and the promise-bridging helpers `wait`/`collect`/`pipe`/`pipeline`
are embedded as settlement automata over stream-event traces.
-/

set_option autoImplicit false

namespace PromiseStreams

variable {α β γ σ ε : Type}

/-- From src/index.d.ts: the `Options` interface.  `concurrent` is the maximum
number of concurrent transform promises allowed; it defaults to 1. -/
structure Options where
  concurrent : Nat := 1
deriving DecidableEq

/-- Modelled from the spec: the tri-state CompletionState of a relay stream
instance — Running, Ended (all input consumed and drained) or Failed. -/
inductive CompletionState (ε : Type) where
  | running
  | ended
  | failed (e : ε)
deriving DecidableEq

/-- Modelled from the spec: the state of the Bounded-Concurrency Promise Relay.
`inFlight` is the list of PendingSlots (intake position together with the
outcome its transform promise will settle with); `outQueue` is the
OutputQueue of completed-but-not-yet-emitted results ordered by intake
position; positions below `emitted` have been released downstream, and
`output` is the sequence of data chunks released downstream so far.  `sched`
is the remaining settlement schedule (which in-flight promise settles next),
`acc` the accumulator state threaded through intakes, and `errors` the error
events emitted. -/
structure RelayState (β σ ε : Type) where
  sched : List Nat
  nextIdx : Nat
  inFlight : List (Nat × Except ε (List β))
  outQueue : List (Nat × List β)
  emitted : Nat
  output : List β
  acc : σ
  cstate : CompletionState ε
  errors : List ε

/-- Modelled from the spec: insert a completed result into the OutputQueue,
keeping the queue ordered by intake position. -/
def insertQueue (p : Nat × List β) : List (Nat × List β) → List (Nat × List β)
  | [] => [p]
  | q :: qs => if p.1 ≤ q.1 then p :: q :: qs else q :: insertQueue p qs

/-- Modelled from the spec: release queued outputs downstream in strict
intake order — repeatedly commit the queue entry whose position equals
`emitted`, stopping at the first gap.  Returns the new `emitted` counter, the
remaining queue and the released data chunks. -/
def flush (e : Nat) : List (Nat × List β) → Nat × List (Nat × List β) × List β
  | [] => (e, [], [])
  | p :: ps =>
    if p.1 = e then
      let r := flush (e + 1) ps
      (r.1, r.2.1, p.2 ++ r.2.2)
    else (e, p :: ps, [])

/-- Modelled from the spec: one scheduling step of the relay for `n` input
items under concurrency limit `c`.  The transform of item `i` is
`t acc i`: it updates the threaded accumulator and yields the outcome the
transform promise settles with (a list of data chunks to commit, or an
error).  While Running, the relay begins the next transform immediately
whenever a concurrency slot is free, otherwise the schedule picks which
in-flight promise settles: an ok settlement commits its chunks to the
OutputQueue and flushes in intake order, an error settlement transitions to
Failed.  Once all input is consumed and drained, `onEnd` runs and the relay
Ends (or Fails).  Once Failed, no further transforms are started; in-flight
promises still settle but their results are discarded and further errors are
swallowed. -/
def relayStep (c n : Nat) (t : σ → Nat → σ × Except ε (List β))
    (onEnd : σ → Except ε Unit) (s : RelayState β σ ε) : RelayState β σ ε :=
  match s.cstate with
  | .ended => s
  | .failed _ =>
    if s.inFlight.length = 0 then s
    else
      let k := s.sched.headD 0 % s.inFlight.length
      { s with sched := s.sched.tail,
               inFlight := s.inFlight.take k ++ s.inFlight.drop (k + 1) }
  | .running =>
    if s.nextIdx < n ∧ s.inFlight.length < c then
      { s with nextIdx := s.nextIdx + 1,
               acc := (t s.acc s.nextIdx).1,
               inFlight := s.inFlight ++ [(s.nextIdx, (t s.acc s.nextIdx).2)] }
    else if s.inFlight.length = 0 then
      if s.nextIdx = n then
        match onEnd s.acc with
        | .ok _ => { s with cstate := .ended }
        | .error e => { s with cstate := .failed e, errors := s.errors ++ [e] }
      else s
    else
      let k := s.sched.headD 0 % s.inFlight.length
      let slot := s.inFlight.getD k (0, Except.ok [])
      let rest := s.inFlight.take k ++ s.inFlight.drop (k + 1)
      match slot.2 with
      | .ok outs =>
        let f := flush s.emitted (insertQueue (slot.1, outs) s.outQueue)
        { s with sched := s.sched.tail, inFlight := rest,
                 outQueue := f.2.1, emitted := f.1,
                 output := s.output ++ f.2.2 }
      | .error e =>
        { s with sched := s.sched.tail, inFlight := rest,
                 cstate := .failed e, errors := s.errors ++ [e] }

/-- The initial relay state for a given settlement schedule and initial
accumulator. -/
def relayInit (sched : List Nat) (init : σ) : RelayState β σ ε :=
  { sched := sched, nextIdx := 0, inFlight := [], outQueue := [], emitted := 0,
    output := [], acc := init, cstate := .running, errors := [] }

/-- The relay state after `k` scheduling steps. -/
def relayIter (c n : Nat) (t : σ → Nat → σ × Except ε (List β))
    (onEnd : σ → Except ε Unit) (sched : List Nat) (init : σ) (k : Nat) :
    RelayState β σ ε :=
  (relayStep c n t onEnd)^[k] (relayInit sched init)

/-- The final relay state: `2 * n + 1` steps always reach a terminal
(fixpoint) state for `n` input items. -/
def relayRun (c n : Nat) (t : σ → Nat → σ × Except ε (List β))
    (onEnd : σ → Except ε Unit) (sched : List Nat) (init : σ) :
    RelayState β σ ε :=
  relayIter c n t onEnd sched init (2 * n + 1)

/-- The accumulator state after the first `i` intakes. -/
def accAt (t : σ → Nat → σ × Except ε (List β)) (init : σ) : Nat → σ
  | 0 => init
  | i + 1 => (t (accAt t init i) i).1

/-- The outcome the transform promise of item `i` settles with. -/
def outAt (t : σ → Nat → σ × Except ε (List β)) (init : σ) (i : Nat) :
    Except ε (List β) :=
  (t (accAt t init i) i).2

/-- The data chunks item `i` commits downstream (empty on error). -/
def outListAt (t : σ → Nat → σ × Except ε (List β)) (init : σ) (i : Nat) :
    List β :=
  match outAt t init i with
  | .ok l => l
  | .error _ => []

/-- Termination measure of the relay: every non-fixpoint step decreases it. -/
def relayMeasure (n : Nat) (s : RelayState β σ ε) : Nat :=
  2 * (n - s.nextIdx) + s.inFlight.length +
    (match s.cstate with | .running => 1 | _ => 0)

/-- The position in the in-flight list the schedule picks to settle next. -/
def pickIdx (s : RelayState β σ ε) : Nat :=
  s.sched.headD 0 % s.inFlight.length

/-- The inductive invariant of the relay machine: the in-flight slots carry
the outcomes their transform promises settle with, the OutputQueue holds
exactly the settled-but-unreleased positions sorted by intake position, the
released output is the in-order concatenation of the chunks of positions
below `emitted`, in-flight and queued positions partition the window from
`emitted` to `nextIdx` while the relay is Running, the accumulator equals
the intake-order fold, and error events agree with the CompletionState. -/
structure RelayInv (c n : Nat) (t : σ → Nat → σ × Except ε (List β))
    (init : σ) (s : RelayState β σ ε) : Prop where
  next_le : s.nextIdx ≤ n
  em_le : s.emitted ≤ s.nextIdx
  flight_le : s.inFlight.length ≤ c
  acc_eq : s.acc = accAt t init s.nextIdx
  flight_out : ∀ p ∈ s.inFlight, p.2 = outAt t init p.1
  queue_ok : ∀ p ∈ s.outQueue, outAt t init p.1 = Except.ok p.2
  out_eq : s.output = ((List.range s.emitted).map (outListAt t init)).flatten
  err_eq : ∀ e, s.cstate = CompletionState.failed e → s.errors = [e]
  err_nil : (∀ e, s.cstate ≠ CompletionState.failed e) → s.errors = []
  cover : s.cstate = CompletionState.running → ∀ i,
    (i ∈ s.inFlight.map Prod.fst ∨ i ∈ s.outQueue.map Prod.fst) ↔
      (s.emitted ≤ i ∧ i < s.nextIdx)
  disj : s.cstate = CompletionState.running → ∀ i,
    i ∈ s.inFlight.map Prod.fst → i ∉ s.outQueue.map Prod.fst
  flight_nodup : (s.inFlight.map Prod.fst).Nodup
  queue_sorted : List.Sorted (· < ·) (s.outQueue.map Prod.fst)
  flushed : s.cstate = CompletionState.running →
    s.emitted ∉ s.outQueue.map Prod.fst
  ended_done : s.cstate = CompletionState.ended →
    s.nextIdx = n ∧ s.inFlight = [] ∧ s.outQueue = [] ∧ s.emitted = n

/-- The relay has not Failed. -/
def NotFailed (s : RelayState β σ ε) : Prop :=
  ∀ e, s.cstate ≠ CompletionState.failed e

/-- Modelled from the spec: `through(options, transformFn, onEnd)` — the core
relay engine run to completion under a settlement schedule. -/
def through (o : Options) (n : Nat) (t : σ → Nat → σ × Except ε (List β))
    (onEnd : σ → Except ε Unit) (sched : List Nat) (init : σ) :
    RelayState β σ ε :=
  relayRun o.concurrent n t onEnd sched init

/-- The transform of the `map(fn)` specialization: item `i` commits exactly
the chunk `fn` of the `i`-th input and never fails. -/
def mapT (fn : α → β) (xs : List α) :
    Unit → Nat → Unit × Except Unit (List β) :=
  fun _ i => ((), Except.ok (((xs.get? i).map fn).toList))

/-- Modelled from the spec: the `map(fn)` promise stream run to completion on
input `xs` with concurrency `c` under settlement schedule `sched`. -/
def map (fn : α → β) (xs : List α) (c : Nat) (sched : List Nat) :
    RelayState β Unit Unit :=
  relayRun c xs.length (mapT fn xs) (fun _ => Except.ok ()) sched ()

/-- The `map(fn)` relay state after `k` scheduling steps. -/
def mapIter (fn : α → β) (xs : List α) (c : Nat) (sched : List Nat) (k : Nat) :
    RelayState β Unit Unit :=
  relayIter c xs.length (mapT fn xs) (fun _ => Except.ok ()) sched () k

/-- The transform of the `filter(fn)` specialization: item `i` commits the
original unmodified item when the predicate resolves true, and nothing
otherwise. -/
def filterT (p : α → Bool) (xs : List α) :
    Unit → Nat → Unit × Except Unit (List α) :=
  fun _ i => ((), Except.ok (match xs.get? i with
    | some x => if p x then [x] else []
    | none => []))

/-- Modelled from the spec: the `filter(fn)` promise stream run to completion
on input `xs` with concurrency `c` under settlement schedule `sched`. -/
def filter (p : α → Bool) (xs : List α) (c : Nat) (sched : List Nat) :
    RelayState α Unit Unit :=
  relayRun c xs.length (filterT p xs) (fun _ => Except.ok ()) sched ()

/-- The `filter(fn)` relay state after `k` scheduling steps. -/
def filterIter (p : α → Bool) (xs : List α) (c : Nat) (sched : List Nat)
    (k : Nat) : RelayState α Unit Unit :=
  relayIter c xs.length (filterT p xs) (fun _ => Except.ok ()) sched () k

/-- The transform of the `reduce(fn, initial)` specialization: each item's
fold step is chained onto the previous step of the single sequential
accumulator dependency chain (in intake order, which is input order), and no
chunks are emitted downstream during processing. -/
def reduceT (f : γ → α → γ) (xs : List α) :
    γ → Nat → γ × Except Unit (List Unit) :=
  fun a i => (match xs.get? i with
    | some x => f a x
    | none => a, Except.ok [])

/-- Modelled from the spec: the `reduce(fn, initial)` promise stream run to
completion on input `xs` with concurrency `c` under settlement schedule
`sched`; the final accumulator is the `acc` field of the resulting state. -/
def reduce (f : γ → α → γ) (init : γ) (xs : List α) (c : Nat)
    (sched : List Nat) : RelayState Unit γ Unit :=
  relayRun c xs.length (reduceT f xs) (fun _ => Except.ok ()) sched init

/-- Modelled from the spec: a stream event signal — a data chunk, a normal
end, or an error.  Chunks are sequences over an alphabet `γ` (characters in
string mode, bytes in buffer mode). -/
inductive Sig (γ ε : Type) where
  | dat (chunk : List γ)
  | fin
  | err (e : ε)
deriving DecidableEq

/-- Modelled from the spec: the settlement status of a bridging promise. -/
inductive Settle (ε : Type) where
  | pending
  | resolved
  | rejected (e : ε)
deriving DecidableEq

/-- Modelled from the spec: how `wait` reacts to one stream signal — the
first end or error signal settles the promise, and signals arriving once it
is settled are ignored. -/
def waitOnSignal (st : Settle ε) (sig : Sig γ ε) : Settle ε :=
  match st, sig with
  | .pending, .fin => .resolved
  | .pending, .err e => .rejected e
  | st, _ => st

/-- Modelled from the spec: `wait(stream)` over the stream's event trace —
resolves on normal end, rejects on error, settles exactly once. -/
def wait (evs : List (Sig γ ε)) : Settle ε :=
  evs.foldl waitOnSignal .pending

/-- The first end-or-error signal of an event trace, which determines the
settlement of `wait`. -/
def firstSignal : List (Sig γ ε) → Settle ε
  | [] => .pending
  | .fin :: _ => .resolved
  | .err e :: _ => .rejected e
  | .dat _ :: rest => firstSignal rest

/-- Modelled from the spec: the settlement status of the `collect` promise,
carrying the chunks accumulated so far while pending and the combined
payload once resolved. -/
inductive CSettle (γ ε : Type) where
  | pending (acc : List γ)
  | resolved (res : List γ)
  | rejected (e : ε)
deriving DecidableEq

/-- Modelled from the spec: how `collect` reacts to one stream signal — data
chunks are concatenated onto the accumulator, end resolves with the combined
payload, error rejects, and signals after settlement are ignored. -/
def collectOnSignal (st : CSettle γ ε) (sig : Sig γ ε) : CSettle γ ε :=
  match st, sig with
  | .pending acc, .dat c => .pending (acc ++ c)
  | .pending acc, .fin => .resolved acc
  | .pending _, .err e => .rejected e
  | st, _ => st

/-- Modelled from the spec: `collect(stream)` over the stream's event
trace. -/
def collect (evs : List (Sig γ ε)) : CSettle γ ε :=
  evs.foldl collectOnSignal (.pending [])

/-- The settlement kind of a `collect` promise, forgetting the payload. -/
def settleKind : CSettle γ ε → Settle ε
  | .pending _ => .pending
  | .resolved _ => .resolved
  | .rejected e => .rejected e

/-- Modelled from the spec: a signal observed by `pipe`, tagged with whether
it came from the source or the destination stream. -/
inductive PSig (γ ε : Type) where
  | src (s : Sig γ ε)
  | dst (s : Sig γ ε)
deriving DecidableEq

/-- Modelled from the spec: how `pipe` reacts to one tagged signal — it
resolves when the source ends and rejects on an error from either end,
settling exactly once. -/
def pipeOnSignal (st : Settle ε) (sig : PSig γ ε) : Settle ε :=
  match st, sig with
  | .pending, .src .fin => .resolved
  | .pending, .src (.err e) => .rejected e
  | .pending, .dst (.err e) => .rejected e
  | st, _ => st

/-- Modelled from the spec: `pipe(source, destination)` over the interleaved
tagged event trace of both streams. -/
def pipe (evs : List (PSig γ ε)) : Settle ε :=
  evs.foldl pipeOnSignal .pending

/-- The first settling signal of a tagged trace: source end resolves, an
error on either end rejects, destination end and data are ignored. -/
def pipeFirstSignal : List (PSig γ ε) → Settle ε
  | [] => .pending
  | .src .fin :: _ => .resolved
  | .src (.err e) :: _ => .rejected e
  | .dst (.err e) :: _ => .rejected e
  | _ :: rest => pipeFirstSignal rest

/-- Modelled from the spec: the observable state of a `pipeline` — the
settlement of its aggregate promise together with the writes that have
reached the sink. -/
structure PipeDelivery (γ ε : Type) where
  settle : Settle ε
  delivered : List (List γ)
deriving DecidableEq

/-- Modelled from the spec: how `pipeline(source, ..., stages)` with final
stage (sink) index `k` reacts to one stage-tagged signal.  Any stage error
rejects the aggregate promise and aborts the chain, so nothing is delivered
to the sink afterwards; the aggregate promise resolves when the final stage
ends; data reaching the sink while the pipeline is live is delivered. -/
def pipelineOnSignal (k : Nat) (st : PipeDelivery γ ε) (ev : Nat × Sig γ ε) :
    PipeDelivery γ ε :=
  match st.settle, ev with
  | .pending, (_, .err e) => { st with settle := .rejected e }
  | .pending, (i, .fin) => if i = k then { st with settle := .resolved } else st
  | .pending, (i, .dat c) =>
    if i = k then { st with delivered := st.delivered ++ [c] } else st
  | _, _ => st

/-- Modelled from the spec: `pipeline` run over a stage-tagged event trace,
with `k` the index of the final stage. -/
def pipeline (k : Nat) (evs : List (Nat × Sig γ ε)) : PipeDelivery γ ε :=
  evs.foldl (pipelineOnSignal k) ⟨.pending, []⟩

/-- The data chunks addressed to stage `k` within an event trace. -/
def datTo (k : Nat) (evs : List (Nat × Sig γ ε)) : List (List γ) :=
  evs.filterMap (fun ev => match ev with
    | (i, Sig.dat c) => if i = k then some c else none
    | _ => none)

/-- A fragment of the TypeScript type language, enough to state the return
types declared in src/index.d.ts. -/
inductive TsType where
  | voidT
  | booleanT
  | anyT
  | promiseT (t : TsType)
deriving DecidableEq

/-- From src/index.d.ts line 18: the return type declared for the
promise-argument overload `push(val: T | Promise<T>)`. -/
def pushPromiseOverloadReturnType : TsType := TsType.voidT

/-- Modelled from the spec: the return type the doc comment of `push`
documents — a promise that resolves when the pushed value has been forwarded
downstream. -/
def pushDocumentedReturnType : TsType := TsType.promiseT TsType.anyT

/-- A value that becomes available at a given time on the single-threaded
event-loop timeline. -/
structure TimedVal (α : Type) where
  time : Nat
  val : α
deriving DecidableEq

/-- Modelled from the spec: the documented behaviour of `push` on a promise
argument — the resolved value is forwarded downstream upon resolution, and
the call yields an acknowledgement promise that resolves at exactly the
forwarding time (enabling `return this.push(data)`). -/
def push (downstream : List (TimedVal α)) (p : TimedVal α) :
    List (TimedVal α) × TimedVal Unit :=
  (downstream ++ [p], ⟨p.time, ()⟩)

/-- Modelled from the spec and the src/index.d.ts doc comments: a promise
stream pipeline description.  `mapStage s fn` is a mapping promise stream
with `s` piped into it, `filterStage s p` a filtering promise stream with
`s` piped into it. -/
inductive PStream (α : Type) : Type where
  | source (items : List α)
  | mapStage (src : PStream α) (fn : α → α)
  | filterStage (src : PStream α) (p : α → Bool)

/-- The sequence of items a promise stream emits, each stage interpreted by
the relay semantics. -/
def PStream.emits : PStream α → List α
  | .source xs => xs
  | .mapStage s fn => (PromiseStreams.map fn s.emits 1 []).output
  | .filterStage s p => (PromiseStreams.filter p s.emits 1 []).output

/-- From the src/index.d.ts instance method `PromiseStream.map`: creates a
new mapping promise stream, pipes this promise stream into it and returns
the new stream. -/
def PStream.map (s : PStream α) (fn : α → α) : PStream α :=
  PStream.mapStage s fn

/-- From the src/index.d.ts instance method `PromiseStream.filter`: creates
a new filtering promise stream, pipes this promise stream into it and
returns the new stream. -/
def PStream.filter (s : PStream α) (p : α → Bool) : PStream α :=
  PStream.filterStage s p

/-- Modelled from the spec: a `ReducePromiseStream` — a reducing promise
stream with its upstream piped into it. -/
structure RStream (α : Type) where
  src : PStream α
  f : α → α → α
  init : α

/-- From the src/index.d.ts instance method `PromiseStream.reduce`: creates
a new reducing promise stream, pipes this promise stream into it and
returns the new stream. -/
def PStream.reduce (s : PStream α) (f : α → α → α) (init : α) : RStream α :=
  ⟨s, f, init⟩

/-- The value the `promise()` of a `ReducePromiseStream` resolves with: the
final accumulator of the relay run. -/
def RStream.promiseVal (r : RStream α) : α :=
  (PromiseStreams.reduce r.f r.init r.src.emits 1 []).acc

/-- A concrete relay transform whose invocation for item 1 rejects, used to
exhibit the error policy on a concrete run. -/
def tFail : Unit → Nat → Unit × Except Nat (List Nat) :=
  fun _ i => ((), if i = 1 then Except.error 7 else Except.ok [i])

/-- A concrete rejecting end callback. -/
def endFail : Unit → Except Nat Unit := fun _ => Except.error 9

/-- The concrete Failed state reached by running the relay on `tFail`. -/
def failedProbe : RelayState Nat Unit Nat :=
  relayIter 2 3 tFail endFail [1, 1] () 7

/-- A concrete Running relay state that has consumed all input and drained
all in-flight transforms, about to run the end callback. -/
def endProbe : RelayState Nat Unit Nat :=
  ⟨[], 3, [], [], 3, [], (), CompletionState.running, []⟩

/-- A concrete Running relay state whose single in-flight transform promise
settles with an error. -/
def slotProbe : RelayState Nat Unit Nat :=
  ⟨[0], 3, [(2, Except.error 5)], [], 2, [1], (), CompletionState.running, []⟩

/-! ## Auxiliary list lemmas -/

theorem mem_erase_at_of_nodup {l : List α} {k : Nat} (hk : k < l.length)
    (hnd : l.Nodup) (x : α) :
    x ∈ l.take k ++ l.drop (k + 1) ↔ x ∈ l ∧ x ≠ l[k] := by
  have hdecomp : l = l.take k ++ l[k] :: l.drop (k + 1) := by
    conv_lhs => rw [← List.take_append_drop k l, List.drop_eq_getElem_cons hk]
  have hnd2 : (l.take k ++ l[k] :: l.drop (k + 1)).Nodup := hdecomp ▸ hnd
  rw [List.nodup_append] at hnd2
  obtain ⟨-, hcons, hdisj⟩ := hnd2
  rw [List.nodup_cons] at hcons
  constructor
  · intro hx
    rcases List.mem_append.mp hx with h1 | h2
    · refine ⟨?_, ?_⟩
      · rw [hdecomp]
        exact List.mem_append.mpr (Or.inl h1)
      · intro hxe
        exact hdisj h1 (hxe ▸ List.mem_cons_self _ _)
    · refine ⟨?_, ?_⟩
      · rw [hdecomp]
        exact List.mem_append.mpr (Or.inr (List.mem_cons_of_mem _ h2))
      · intro hxe
        exact hcons.1 (hxe ▸ h2)
  · rintro ⟨hx, hne⟩
    rw [hdecomp] at hx
    rcases List.mem_append.mp hx with h1 | h2
    · exact List.mem_append.mpr (Or.inl h1)
    · rcases List.mem_cons.mp h2 with h3 | h4
      · exact absurd h3 hne
      · exact List.mem_append.mpr (Or.inr h4)

theorem length_erase_at {l : List α} {k : Nat} (hk : k < l.length) :
    (l.take k ++ l.drop (k + 1)).length = l.length - 1 := by
  rw [List.length_append, List.length_take, List.length_drop]
  omega

theorem erase_at_sublist (l : List α) (k : Nat) :
    (l.take k ++ l.drop (k + 1)).Sublist l := by
  rw [← List.eraseIdx_eq_take_drop_succ]
  exact List.eraseIdx_sublist l k

theorem map_snd_of_fst {l : List (Nat × List β)} {g : Nat → List β}
    (h : ∀ p ∈ l, p.2 = g p.1) :
    l.map Prod.snd = (l.map Prod.fst).map g := by
  induction l with
  | nil => rfl
  | cons p ps ih =>
    simp only [List.map_cons, List.cons.injEq]
    exact ⟨h p (List.mem_cons_self _ _),
      ih (fun q hq => h q (List.mem_cons_of_mem _ hq))⟩

/-! ## OutputQueue lemmas -/

theorem insertQueue_mem {p x : Nat × List β} {q : List (Nat × List β)} :
    x ∈ insertQueue p q ↔ x = p ∨ x ∈ q := by
  induction q with
  | nil => simp [insertQueue]
  | cons q0 qs ih =>
    by_cases h : p.1 ≤ q0.1
    · simp [insertQueue, h]
    · simp only [insertQueue, if_neg h, List.mem_cons, ih]
      tauto

theorem insertQueue_fst_mem {p : Nat × List β} {q : List (Nat × List β)}
    {i : Nat} :
    i ∈ (insertQueue p q).map Prod.fst ↔ i = p.1 ∨ i ∈ q.map Prod.fst := by
  simp only [List.mem_map]
  constructor
  · rintro ⟨x, hx, rfl⟩
    rcases insertQueue_mem.mp hx with rfl | hxq
    · exact Or.inl rfl
    · exact Or.inr ⟨x, hxq, rfl⟩
  · rintro (rfl | ⟨x, hxq, rfl⟩)
    · exact ⟨p, insertQueue_mem.mpr (Or.inl rfl), rfl⟩
    · exact ⟨x, insertQueue_mem.mpr (Or.inr hxq), rfl⟩

theorem insertQueue_sorted {p : Nat × List β} {q : List (Nat × List β)}
    (hs : List.Sorted (· < ·) (q.map Prod.fst))
    (hnm : p.1 ∉ q.map Prod.fst) :
    List.Sorted (· < ·) ((insertQueue p q).map Prod.fst) := by
  induction q with
  | nil => simp [insertQueue]
  | cons q0 qs ih =>
    simp only [List.map_cons, List.sorted_cons] at hs
    by_cases h : p.1 ≤ q0.1
    · have hne : p.1 ≠ q0.1 := fun he => hnm (by simp [he])
      simp only [insertQueue, if_pos h, List.map_cons, List.sorted_cons]
      refine ⟨?_, hs.1, hs.2⟩
      intro b hb
      rcases List.mem_cons.mp hb with rfl | hbs
      · omega
      · have := hs.1 b hbs
        omega
    · simp only [insertQueue, if_neg h, List.map_cons, List.sorted_cons]
      refine ⟨?_, ih hs.2 (fun hmem => hnm (by simp [hmem]))⟩
      intro b hb
      rcases insertQueue_fst_mem.mp hb with rfl | hbs
      · omega
      · exact hs.1 b hbs

/-- Characterization of `flush`: it pops a maximal prefix of queue entries
whose positions are consecutive starting at `e`, releases their chunks in
order, and stops at the first gap. -/
theorem flush_spec (e : Nat) (q : List (Nat × List β)) :
    ∃ j, j ≤ q.length ∧
      flush e q = (e + j, q.drop j, ((q.take j).map Prod.snd).flatten) ∧
      (q.take j).map Prod.fst = List.range' e j ∧
      ∀ x xs, q.drop j = x :: xs → x.1 ≠ e + j := by
  induction q generalizing e with
  | nil =>
    exact ⟨0, by simp [flush]⟩
  | cons p ps ih =>
    by_cases hp : p.1 = e
    · obtain ⟨j, hj, hfl, hfst, hstop⟩ := ih (e + 1)
      refine ⟨j + 1, by simpa using Nat.succ_le_succ hj, ?_, ?_, ?_⟩
      · have hcomp : flush e (p :: ps) =
            (e + 1 + j, List.drop j ps,
              p.2 ++ (List.map Prod.snd (List.take j ps)).flatten) := by
          simp [flush, if_pos hp, hfl]
        rw [hcomp, List.take_succ_cons, List.drop_succ_cons, List.map_cons,
          List.flatten_cons]
        have he : e + 1 + j = e + (j + 1) := by omega
        rw [he]
      · rw [List.take_succ_cons, List.map_cons, hfst, hp, List.range'_succ]
      · intro x xs hx
        have := hstop x xs (by simpa using hx)
        omega
    · refine ⟨0, Nat.zero_le _, ?_, by simp, ?_⟩
      · simp [flush, if_neg hp]
      · intro x xs hx
        simp only [List.drop_zero] at hx
        cases hx
        simpa using hp

/-! ## Relay step case equations -/

variable {c n : Nat} {t : σ → Nat → σ × Except ε (List β)}
  {onEnd : σ → Except ε Unit} {s : RelayState β σ ε}

theorem relayStep_ended (hc : s.cstate = CompletionState.ended) :
    relayStep c n t onEnd s = s := by
  simp only [relayStep, hc]

theorem relayStep_intake (hc : s.cstate = CompletionState.running)
    (h1 : s.nextIdx < n) (h2 : s.inFlight.length < c) :
    relayStep c n t onEnd s =
      { s with nextIdx := s.nextIdx + 1,
               acc := (t s.acc s.nextIdx).1,
               inFlight := s.inFlight ++ [(s.nextIdx, (t s.acc s.nextIdx).2)] } := by
  simp only [relayStep, hc, if_pos (And.intro h1 h2)]

theorem relayStep_end_ok (hc : s.cstate = CompletionState.running)
    (hni : ¬(s.nextIdx < n ∧ s.inFlight.length < c))
    (hfl : s.inFlight.length = 0) (hn : s.nextIdx = n) {u : Unit}
    (he : onEnd s.acc = Except.ok u) :
    relayStep c n t onEnd s = { s with cstate := CompletionState.ended } := by
  simp only [relayStep, hc, if_neg hni, if_pos hfl, if_pos hn, he]

theorem relayStep_end_err (hc : s.cstate = CompletionState.running)
    (hni : ¬(s.nextIdx < n ∧ s.inFlight.length < c))
    (hfl : s.inFlight.length = 0) (hn : s.nextIdx = n) {e : ε}
    (he : onEnd s.acc = Except.error e) :
    relayStep c n t onEnd s =
      { s with cstate := CompletionState.failed e,
               errors := s.errors ++ [e] } := by
  simp only [relayStep, hc, if_neg hni, if_pos hfl, if_pos hn, he]

theorem relayStep_stuck (hc : s.cstate = CompletionState.running)
    (hni : ¬(s.nextIdx < n ∧ s.inFlight.length < c))
    (hfl : s.inFlight.length = 0) (hn : s.nextIdx ≠ n) :
    relayStep c n t onEnd s = s := by
  simp only [relayStep, hc, if_neg hni, if_pos hfl, if_neg hn]

theorem relayStep_settle_ok (hc : s.cstate = CompletionState.running)
    (hni : ¬(s.nextIdx < n ∧ s.inFlight.length < c))
    (hfl : s.inFlight.length ≠ 0) {slot : Nat × Except ε (List β)}
    (hslot : s.inFlight.getD (pickIdx s) (0, Except.ok []) = slot)
    {outs : List β} (hok : slot.2 = Except.ok outs) :
    relayStep c n t onEnd s =
      { s with sched := s.sched.tail,
               inFlight := s.inFlight.take (pickIdx s) ++
                 s.inFlight.drop (pickIdx s + 1),
               outQueue := (flush s.emitted
                 (insertQueue (slot.1, outs) s.outQueue)).2.1,
               emitted := (flush s.emitted
                 (insertQueue (slot.1, outs) s.outQueue)).1,
               output := s.output ++ (flush s.emitted
                 (insertQueue (slot.1, outs) s.outQueue)).2.2 } := by
  simp only [relayStep, hc, if_neg hni, if_neg hfl, pickIdx] at *
  rw [hslot, hok]

theorem relayStep_settle_err (hc : s.cstate = CompletionState.running)
    (hni : ¬(s.nextIdx < n ∧ s.inFlight.length < c))
    (hfl : s.inFlight.length ≠ 0) {slot : Nat × Except ε (List β)}
    (hslot : s.inFlight.getD (pickIdx s) (0, Except.ok []) = slot)
    {e : ε} (herr : slot.2 = Except.error e) :
    relayStep c n t onEnd s =
      { s with sched := s.sched.tail,
               inFlight := s.inFlight.take (pickIdx s) ++
                 s.inFlight.drop (pickIdx s + 1),
               cstate := CompletionState.failed e,
               errors := s.errors ++ [e] } := by
  simp only [relayStep, hc, if_neg hni, if_neg hfl, pickIdx] at *
  rw [hslot, herr]

theorem relayStep_failed_settle {e : ε} (hc : s.cstate = CompletionState.failed e)
    (hfl : s.inFlight.length ≠ 0) :
    relayStep c n t onEnd s =
      { s with sched := s.sched.tail,
               inFlight := s.inFlight.take (pickIdx s) ++
                 s.inFlight.drop (pickIdx s + 1) } := by
  simp only [relayStep, hc, if_neg hfl, pickIdx]

theorem relayStep_failed_done {e : ε} (hc : s.cstate = CompletionState.failed e)
    (hfl : s.inFlight.length = 0) :
    relayStep c n t onEnd s = s := by
  simp only [relayStep, hc, if_pos hfl]

/-! ## The relay invariant -/

theorem outListAt_of_ok {t : σ → Nat → σ × Except ε (List β)} {init : σ}
    {i : Nat} {l : List β} (h : outAt t init i = Except.ok l) :
    outListAt t init i = l := by
  rw [outListAt, h]

theorem range_append_range' (e j : Nat) :
    List.range e ++ List.range' e j = List.range (e + j) := by
  rw [List.range_eq_range', List.range_eq_range']
  have h := List.range'_append 0 e j 1
  simp only [Nat.zero_add, Nat.one_mul] at h
  rw [h, Nat.add_comm j e]


theorem relayInv_init {init : σ} {sched : List Nat} :
    RelayInv c n t init (relayInit sched init : RelayState β σ ε) := by
  refine ⟨?_, ?_, ?_, ?_, ?_, ?_, ?_, ?_, ?_, ?_, ?_, ?_, ?_, ?_, ?_⟩ <;>
    simp [relayInit, accAt]

theorem relayInv_step {init : σ} (h : RelayInv c n t init s) :
    RelayInv c n t init (relayStep c n t onEnd s) := by
  cases hcs : s.cstate with
  | ended =>
    rw [relayStep_ended hcs]
    exact h
  | failed e =>
    by_cases hfl : s.inFlight.length = 0
    · rw [relayStep_failed_done hcs hfl]
      exact h
    · rw [relayStep_failed_settle hcs hfl]
      have hkl : pickIdx s < s.inFlight.length :=
        Nat.mod_lt _ (Nat.pos_of_ne_zero hfl)
      refine ⟨h.next_le, h.em_le, ?_, h.acc_eq, ?_, h.queue_ok, h.out_eq,
        h.err_eq, h.err_nil, ?_, ?_, ?_, h.queue_sorted, ?_, ?_⟩
      · rw [length_erase_at hkl]
        have := h.flight_le
        omega
      · intro p hp
        exact h.flight_out p ((erase_at_sublist _ _).subset hp)
      · intro hrun
        have hx : s.cstate = CompletionState.running := hrun
        rw [hcs] at hx
        simp at hx
      · intro hrun
        have hx : s.cstate = CompletionState.running := hrun
        rw [hcs] at hx
        simp at hx
      · rw [List.map_append, List.map_take, List.map_drop]
        exact List.Nodup.sublist (erase_at_sublist _ _) h.flight_nodup
      · intro hrun
        have hx : s.cstate = CompletionState.running := hrun
        rw [hcs] at hx
        simp at hx
      · intro hend
        have hx : s.cstate = CompletionState.ended := hend
        rw [hcs] at hx
        simp at hx
  | running =>
    by_cases hin : s.nextIdx < n ∧ s.inFlight.length < c
    · rw [relayStep_intake hcs hin.1 hin.2]
      have hnxf : s.nextIdx ∉ s.inFlight.map Prod.fst := by
        intro hmem
        have := (h.cover hcs s.nextIdx).mp (Or.inl hmem)
        omega
      have hnxq : s.nextIdx ∉ s.outQueue.map Prod.fst := by
        intro hmem
        have := (h.cover hcs s.nextIdx).mp (Or.inr hmem)
        omega
      refine ⟨?_, ?_, ?_, ?_, ?_, h.queue_ok, h.out_eq, h.err_eq, h.err_nil,
        ?_, ?_, ?_, h.queue_sorted, h.flushed, ?_⟩
      · show s.nextIdx + 1 ≤ n
        omega
      · show s.emitted ≤ s.nextIdx + 1
        have := h.em_le
        omega
      · rw [List.length_append]
        have := hin.2
        simp
        omega
      · show (t s.acc s.nextIdx).1 = accAt t init (s.nextIdx + 1)
        rw [h.acc_eq]
        rfl
      · intro p hp
        rcases List.mem_append.mp hp with h1 | h2
        · exact h.flight_out p h1
        · rw [List.mem_singleton] at h2
          subst h2
          show (t s.acc s.nextIdx).2 = outAt t init s.nextIdx
          rw [h.acc_eq]
          rfl
      · intro _ i
        show i ∈ (s.inFlight ++ [(s.nextIdx, (t s.acc s.nextIdx).2)]).map Prod.fst ∨
            i ∈ s.outQueue.map Prod.fst ↔
          s.emitted ≤ i ∧ i < s.nextIdx + 1
        rw [List.map_append, List.map_cons, List.map_nil]
        have hold := h.cover hcs i
        have hem := h.em_le
        constructor
        · intro hx
          rcases hx with h1 | h2
          · rcases List.mem_append.mp h1 with h3 | h4
            · have := hold.mp (Or.inl h3)
              omega
            · rw [List.mem_singleton] at h4
              omega
          · have := hold.mp (Or.inr h2)
            omega
        · rintro ⟨hle, hlt⟩
          by_cases hi : i = s.nextIdx
          · exact Or.inl (List.mem_append.mpr (Or.inr (List.mem_singleton.mpr hi)))
          · rcases hold.mpr ⟨hle, by omega⟩ with h1 | h2
            · exact Or.inl (List.mem_append.mpr (Or.inl h1))
            · exact Or.inr h2
      · intro _ i hi
        show i ∉ s.outQueue.map Prod.fst
        rw [show (s.inFlight ++ [(s.nextIdx, (t s.acc s.nextIdx).2)]).map Prod.fst =
            s.inFlight.map Prod.fst ++ [s.nextIdx] from by
          rw [List.map_append, List.map_cons, List.map_nil]] at hi
        rcases List.mem_append.mp hi with h1 | h2
        · exact h.disj hcs i h1
        · rw [List.mem_singleton] at h2
          subst h2
          exact hnxq
      · rw [List.map_append, List.map_cons, List.map_nil, List.nodup_append]
        refine ⟨h.flight_nodup, List.nodup_singleton _, ?_⟩
        intro a ha hb
        rw [List.mem_singleton] at hb
        subst hb
        exact hnxf ha
      · intro hend
        have hx : s.cstate = CompletionState.ended := hend
        rw [hcs] at hx
        simp at hx
    · by_cases hfl : s.inFlight.length = 0
      · by_cases hn : s.nextIdx = n
        · cases he : onEnd s.acc with
          | ok u =>
            rw [relayStep_end_ok hcs hin hfl hn he]
            have hflnil : s.inFlight = [] := List.length_eq_zero.mp hfl
            have hem : s.emitted = s.nextIdx := by
              by_contra hne
              have hlt : s.emitted < s.nextIdx := Nat.lt_of_le_of_ne h.em_le hne
              rcases (h.cover hcs s.emitted).mpr ⟨Nat.le_refl _, hlt⟩ with h1 | h2
              · rw [hflnil] at h1
                simp at h1
              · exact h.flushed hcs h2
            have hqnil : s.outQueue = [] := by
              rw [List.eq_nil_iff_forall_not_mem]
              intro p hp
              have hmem : p.1 ∈ s.outQueue.map Prod.fst :=
                List.mem_map_of_mem _ hp
              have := (h.cover hcs p.1).mp (Or.inr hmem)
              omega
            refine ⟨h.next_le, h.em_le, h.flight_le, h.acc_eq, h.flight_out,
              h.queue_ok, h.out_eq, ?_, ?_, ?_, ?_, h.flight_nodup,
              h.queue_sorted, ?_, ?_⟩
            · intro e hfe
              exact absurd hfe (by simp)
            · intro _
              exact h.err_nil (fun e he2 => by rw [hcs] at he2; simp at he2)
            · intro hrun
              exact absurd hrun (by simp)
            · intro hrun
              exact absurd hrun (by simp)
            · intro hrun
              exact absurd hrun (by simp)
            · intro _
              refine ⟨hn, hflnil, hqnil, ?_⟩
              show s.emitted = n
              omega
          | error e =>
            rw [relayStep_end_err hcs hin hfl hn he]
            refine ⟨h.next_le, h.em_le, h.flight_le, h.acc_eq, h.flight_out,
              h.queue_ok, h.out_eq, ?_, ?_, ?_, ?_, h.flight_nodup,
              h.queue_sorted, ?_, ?_⟩
            · intro e2 hfe
              have hee : e = e2 := by
                have hx : CompletionState.failed e = CompletionState.failed e2 := hfe
                cases hx
                rfl
              subst hee
              show s.errors ++ [e] = [e]
              rw [h.err_nil (fun e2 he2 => by rw [hcs] at he2; simp at he2)]
              rfl
            · intro hall
              exact absurd rfl (hall e)
            · intro hrun
              exact absurd hrun (by simp)
            · intro hrun
              exact absurd hrun (by simp)
            · intro hrun
              exact absurd hrun (by simp)
            · intro hend
              exact absurd hend (by simp)
        · rw [relayStep_stuck hcs hin hfl hn]
          exact h
      · have hkl : pickIdx s < s.inFlight.length :=
          Nat.mod_lt _ (Nat.pos_of_ne_zero hfl)
        have hkm : pickIdx s < (s.inFlight.map Prod.fst).length := by
          rw [List.length_map]
          exact hkl
        have hslot : s.inFlight.getD (pickIdx s) (0, Except.ok []) =
            s.inFlight[pickIdx s] := List.getD_eq_getElem _ _ hkl
        have hslotmem : s.inFlight[pickIdx s] ∈ s.inFlight := List.getElem_mem hkl
        have hfstk : (s.inFlight.map Prod.fst)[pickIdx s] =
            (s.inFlight[pickIdx s]).1 := List.getElem_map _
        have hflight2 : ∀ x, x ∈ (s.inFlight.take (pickIdx s) ++
            s.inFlight.drop (pickIdx s + 1)).map Prod.fst ↔
            x ∈ s.inFlight.map Prod.fst ∧ x ≠ (s.inFlight[pickIdx s]).1 := by
          intro x
          rw [List.map_append, List.map_take, List.map_drop,
            mem_erase_at_of_nodup hkm h.flight_nodup, hfstk]
        have hnodup2 : ((s.inFlight.take (pickIdx s) ++
            s.inFlight.drop (pickIdx s + 1)).map Prod.fst).Nodup := by
          rw [List.map_append, List.map_take, List.map_drop]
          exact List.Nodup.sublist (erase_at_sublist _ _) h.flight_nodup
        cases hout : (s.inFlight[pickIdx s]).2 with
        | error e =>
          rw [relayStep_settle_err hcs hin hfl hslot hout]
          refine ⟨h.next_le, h.em_le, ?_, h.acc_eq, ?_, h.queue_ok, h.out_eq,
            ?_, ?_, ?_, ?_, hnodup2, h.queue_sorted, ?_, ?_⟩
          · rw [length_erase_at hkl]
            have := h.flight_le
            omega
          · intro p hp
            exact h.flight_out p ((erase_at_sublist _ _).subset hp)
          · intro e2 hfe
            have hee : e = e2 := by
              have hx : CompletionState.failed e = CompletionState.failed e2 := hfe
              cases hx
              rfl
            subst hee
            show s.errors ++ [e] = [e]
            rw [h.err_nil (fun e2 he2 => by rw [hcs] at he2; simp at he2)]
            rfl
          · intro hall
            exact absurd rfl (hall e)
          · intro hrun
            exact absurd hrun (by simp)
          · intro hrun
            exact absurd hrun (by simp)
          · intro hrun
            exact absurd hrun (by simp)
          · intro hend
            exact absurd hend (by simp)
        | ok outs =>
          rw [relayStep_settle_ok hcs hin hfl hslot hout]
          have hflout := h.flight_out _ hslotmem
          have hiok : outAt t init (s.inFlight[pickIdx s]).1 = Except.ok outs := by
            rw [← hflout]
            exact hout
          have himem : (s.inFlight[pickIdx s]).1 ∈ s.inFlight.map Prod.fst :=
            List.mem_map_of_mem _ hslotmem
          have hibound := (h.cover hcs _).mp (Or.inl himem)
          have hinotq : (s.inFlight[pickIdx s]).1 ∉ s.outQueue.map Prod.fst :=
            h.disj hcs _ himem
          have hq1sorted : List.Sorted (· < ·)
              ((insertQueue ((s.inFlight[pickIdx s]).1, outs)
                s.outQueue).map Prod.fst) :=
            insertQueue_sorted h.queue_sorted hinotq
          have hq1nodup : ((insertQueue ((s.inFlight[pickIdx s]).1, outs)
              s.outQueue).map Prod.fst).Nodup := hq1sorted.nodup
          have hq1ok : ∀ p ∈ insertQueue ((s.inFlight[pickIdx s]).1, outs)
              s.outQueue, outAt t init p.1 = Except.ok p.2 := by
            intro p hp
            rcases insertQueue_mem.mp hp with rfl | hpq
            · exact hiok
            · exact h.queue_ok p hpq
          obtain ⟨j, hjle, hflush, hfst, hstop⟩ :=
            flush_spec s.emitted (insertQueue ((s.inFlight[pickIdx s]).1, outs)
              s.outQueue)
          rw [hflush]
          set q1 := insertQueue ((s.inFlight[pickIdx s]).1, outs) s.outQueue
            with hq1def
          have htake_lq : (q1.map Prod.fst).take j = List.range' s.emitted j := by
            rw [← List.map_take, hfst]
          have hdrop_lq : (q1.map Prod.fst).drop j = (q1.drop j).map Prod.fst := by
            rw [List.map_drop]
          have hmem_lq : ∀ x, x ∈ q1.map Prod.fst ↔
              x = (s.inFlight[pickIdx s]).1 ∨ x ∈ s.outQueue.map Prod.fst :=
            fun x => insertQueue_fst_mem
          have hmem_drop : ∀ x, x ∈ (q1.drop j).map Prod.fst ↔
              x ∈ q1.map Prod.fst ∧ ¬(s.emitted ≤ x ∧ x < s.emitted + j) := by
            intro x
            rw [← hdrop_lq]
            constructor
            · intro hx
              have hxlq : x ∈ q1.map Prod.fst := by
                rw [← List.take_append_drop j (q1.map Prod.fst)]
                exact List.mem_append.mpr (Or.inr hx)
              refine ⟨hxlq, ?_⟩
              intro hxr
              have hxtake : x ∈ (q1.map Prod.fst).take j := by
                rw [htake_lq]
                exact List.mem_range'_1.mpr hxr
              have hnd2 : ((q1.map Prod.fst).take j ++
                  (q1.map Prod.fst).drop j).Nodup := by
                rw [List.take_append_drop]
                exact hq1nodup
              exact (List.nodup_append.mp hnd2).2.2 hxtake hx
            · rintro ⟨hxlq, hxnr⟩
              have hsplit : x ∈ (q1.map Prod.fst).take j ∨
                  x ∈ (q1.map Prod.fst).drop j := by
                rw [← List.mem_append, List.take_append_drop]
                exact hxlq
              rcases hsplit with h1 | h2
              · rw [htake_lq] at h1
                exact absurd (List.mem_range'_1.mp h1) hxnr
              · exact h2
          have hcov2 : ∀ i, (i ∈ (s.inFlight.take (pickIdx s) ++
              s.inFlight.drop (pickIdx s + 1)).map Prod.fst ∨
              i ∈ (q1.drop j).map Prod.fst) ↔
              (s.emitted + j ≤ i ∧ i < s.nextIdx) := by
            intro i
            rw [hflight2 i, hmem_drop i]
            constructor
            · rintro (⟨hifl, hni0⟩ | ⟨hilq, hnr⟩)
              · have hib := (h.cover hcs i).mp (Or.inl hifl)
                refine ⟨?_, hib.2⟩
                by_contra hlt
                have hxtake : i ∈ (q1.map Prod.fst).take j := by
                  rw [htake_lq]
                  exact List.mem_range'_1.mpr ⟨hib.1, by omega⟩
                have hilq : i ∈ q1.map Prod.fst :=
                  (List.take_sublist j _).subset hxtake
                rcases (hmem_lq i).mp hilq with h1 | h2
                · exact hni0 h1
                · exact h.disj hcs i hifl h2
              · rcases (hmem_lq i).mp hilq with h1 | h2
                · subst h1
                  exact ⟨by omega, hibound.2⟩
                · have hib := (h.cover hcs i).mp (Or.inr h2)
                  exact ⟨by omega, hib.2⟩
            · rintro ⟨hge, hlt⟩
              by_cases hi0 : i = (s.inFlight[pickIdx s]).1
              · exact Or.inr ⟨(hmem_lq i).mpr (Or.inl hi0), by omega⟩
              · rcases (h.cover hcs i).mpr ⟨by omega, hlt⟩ with h1 | h2
                · exact Or.inl ⟨h1, hi0⟩
                · exact Or.inr ⟨(hmem_lq i).mpr (Or.inr h2), by omega⟩
          have hsorted2 : List.Sorted (· < ·) ((q1.drop j).map Prod.fst) := by
            rw [← hdrop_lq]
            exact List.Pairwise.sublist (List.drop_sublist j _) hq1sorted
          refine ⟨h.next_le, ?_, ?_, h.acc_eq, ?_, ?_, ?_, h.err_eq, h.err_nil,
            ?_, ?_, hnodup2, hsorted2, ?_, ?_⟩
          · show s.emitted + j ≤ s.nextIdx
            by_cases hj : j = 0
            · have := h.em_le
              omega
            · have hxtake : s.emitted + j - 1 ∈ (q1.map Prod.fst).take j := by
                rw [htake_lq]
                exact List.mem_range'_1.mpr ⟨by omega, by omega⟩
              have hmlq : s.emitted + j - 1 ∈ q1.map Prod.fst :=
                (List.take_sublist j _).subset hxtake
              rcases (hmem_lq _).mp hmlq with h1 | h2
              · have := hibound.2
                omega
              · have := (h.cover hcs _).mp (Or.inr h2)
                omega
          · rw [length_erase_at hkl]
            have := h.flight_le
            omega
          · intro p hp
            exact h.flight_out p ((erase_at_sublist _ _).subset hp)
          · intro p hp
            exact hq1ok p ((List.drop_sublist j _).subset hp)
          · show s.output ++ ((q1.take j).map Prod.snd).flatten =
              ((List.range (s.emitted + j)).map (outListAt t init)).flatten
            rw [h.out_eq]
            have hsnd : (q1.take j).map Prod.snd =
                ((q1.take j).map Prod.fst).map (outListAt t init) := by
              refine map_snd_of_fst ?_
              intro p hp
              exact (outListAt_of_ok (hq1ok p ((List.take_sublist j _).subset hp))).symm
            rw [hsnd, hfst, ← List.flatten_append, ← List.map_append,
              range_append_range']
          · intro _ i
            exact hcov2 i
          · intro _ x hx
            have hx2 : x ∈ (s.inFlight.take (pickIdx s) ++
                s.inFlight.drop (pickIdx s + 1)).map Prod.fst := hx
            intro hq2
            have hq2b : x ∈ (q1.drop j).map Prod.fst := hq2
            rw [hflight2 x] at hx2
            rw [hmem_drop x] at hq2b
            rcases (hmem_lq x).mp hq2b.1 with h1 | h2
            · exact hx2.2 h1
            · exact h.disj hcs x hx2.1 h2
          · intro _
            intro hmem0
            have hmem : s.emitted + j ∈ (q1.drop j).map Prod.fst := hmem0
            cases hdq : q1.drop j with
            | nil =>
              rw [hdq] at hmem
              simp at hmem
            | cons x xs =>
              have hx1 := hstop x xs hdq
              rw [hdq, List.map_cons] at hmem
              rcases List.mem_cons.mp hmem with h1 | h2
              · exact hx1 h1.symm
              · have hxmem : x.1 ∈ (q1.drop j).map Prod.fst := by
                  rw [hdq, List.map_cons]
                  exact List.mem_cons_self _ _
                have hxge := (hcov2 x.1).mp (Or.inr hxmem)
                have hsorted3 : List.Sorted (· < ·) (x.1 :: xs.map Prod.fst) := by
                  rw [← List.map_cons, ← hdq]
                  exact hsorted2
                have hlt2 : x.1 < s.emitted + j :=
                  (List.sorted_cons.mp hsorted3).1 _ h2
                omega
          · intro hend
            have hx : s.cstate = CompletionState.ended := hend
            rw [hcs] at hx
            simp at hx

theorem relayInv_iter {init : σ} (sched : List Nat) (k : Nat) :
    RelayInv c n t init (relayIter c n t onEnd sched init k) := by
  induction k with
  | zero => exact relayInv_init
  | succ k ih =>
    rw [relayIter, Function.iterate_succ_apply']
    exact relayInv_step ih

theorem notFailed_step {init : σ} (h : RelayInv c n t init s)
    (hnf : NotFailed s)
    (hok : ∀ i, i < n → ∃ l, outAt t init i = Except.ok l)
    (hend : onEnd (accAt t init n) = Except.ok ()) :
    NotFailed (relayStep c n t onEnd s) := by
  cases hcs : s.cstate with
  | ended =>
    rw [relayStep_ended hcs]
    exact hnf
  | failed e => exact absurd hcs (hnf e)
  | running =>
    by_cases hin : s.nextIdx < n ∧ s.inFlight.length < c
    · rw [relayStep_intake hcs hin.1 hin.2]
      intro e he
      have hx : s.cstate = CompletionState.failed e := he
      rw [hcs] at hx
      simp at hx
    · by_cases hfl : s.inFlight.length = 0
      · by_cases hn : s.nextIdx = n
        · cases he : onEnd s.acc with
          | ok u =>
            rw [relayStep_end_ok hcs hin hfl hn he]
            intro e he2
            have hx : CompletionState.ended = CompletionState.failed e := he2
            simp at hx
          | error e =>
            exfalso
            rw [h.acc_eq, hn, hend] at he
            simp at he
        · rw [relayStep_stuck hcs hin hfl hn]
          exact hnf
      · have hkl : pickIdx s < s.inFlight.length :=
          Nat.mod_lt _ (Nat.pos_of_ne_zero hfl)
        have hslot : s.inFlight.getD (pickIdx s) (0, Except.ok []) =
            s.inFlight[pickIdx s] := List.getD_eq_getElem _ _ hkl
        have hslotmem : s.inFlight[pickIdx s] ∈ s.inFlight :=
          List.getElem_mem hkl
        cases hout : (s.inFlight[pickIdx s]).2 with
        | ok outs =>
          rw [relayStep_settle_ok hcs hin hfl hslot hout]
          intro e he2
          have hx : s.cstate = CompletionState.failed e := he2
          rw [hcs] at hx
          simp at hx
        | error e =>
          exfalso
          have hflout := h.flight_out _ hslotmem
          have hlt : (s.inFlight[pickIdx s]).1 < n := by
            have himem : (s.inFlight[pickIdx s]).1 ∈ s.inFlight.map Prod.fst :=
              List.mem_map_of_mem _ hslotmem
            have h1 := (h.cover hcs _).mp (Or.inl himem)
            have h2 := h.next_le
            omega
          obtain ⟨l, hl⟩ := hok _ hlt
          rw [hflout, hl] at hout
          simp at hout

theorem notFailed_iter {init : σ} (sched : List Nat)
    (hok : ∀ i, i < n → ∃ l, outAt t init i = Except.ok l)
    (hend : onEnd (accAt t init n) = Except.ok ()) (k : Nat) :
    NotFailed (relayIter c n t onEnd sched init k) := by
  induction k with
  | zero =>
    intro e he
    simp [relayIter, relayInit] at he
  | succ k ih =>
    rw [relayIter, Function.iterate_succ_apply']
    exact notFailed_step (relayInv_iter sched k) ih hok hend

/-! ## Termination of the relay run -/

theorem relayMeasure_running (hc : s.cstate = CompletionState.running) :
    relayMeasure n s = 2 * (n - s.nextIdx) + s.inFlight.length + 1 := by
  simp [relayMeasure, hc]

theorem relayMeasure_ended (hc : s.cstate = CompletionState.ended) :
    relayMeasure n s = 2 * (n - s.nextIdx) + s.inFlight.length := by
  simp [relayMeasure, hc]

theorem relayMeasure_failed {e : ε} (hc : s.cstate = CompletionState.failed e) :
    relayMeasure n s = 2 * (n - s.nextIdx) + s.inFlight.length := by
  simp [relayMeasure, hc]

theorem relayStep_fix_or_lt (s : RelayState β σ ε) :
    relayStep c n t onEnd s = s ∨
      relayMeasure n (relayStep c n t onEnd s) < relayMeasure n s := by
  cases hcs : s.cstate with
  | ended => exact Or.inl (relayStep_ended hcs)
  | failed e =>
    by_cases hfl : s.inFlight.length = 0
    · exact Or.inl (relayStep_failed_done hcs hfl)
    · right
      have hkl : pickIdx s < s.inFlight.length :=
        Nat.mod_lt _ (Nat.pos_of_ne_zero hfl)
      have h1 : relayMeasure n (relayStep c n t onEnd s) =
          2 * (n - s.nextIdx) + (s.inFlight.take (pickIdx s) ++
            s.inFlight.drop (pickIdx s + 1)).length := by
        rw [relayStep_failed_settle hcs hfl]
        exact relayMeasure_failed hcs
      rw [h1, relayMeasure_failed hcs, length_erase_at hkl]
      omega
  | running =>
    by_cases hin : s.nextIdx < n ∧ s.inFlight.length < c
    · right
      have h1 : relayMeasure n (relayStep c n t onEnd s) =
          2 * (n - (s.nextIdx + 1)) +
            (s.inFlight ++ [(s.nextIdx, (t s.acc s.nextIdx).2)]).length + 1 := by
        rw [relayStep_intake hcs hin.1 hin.2]
        exact relayMeasure_running hcs
      rw [h1, relayMeasure_running hcs, List.length_append, List.length_cons,
        List.length_nil]
      have := hin.1
      omega
    · by_cases hfl : s.inFlight.length = 0
      · by_cases hn : s.nextIdx = n
        · cases he : onEnd s.acc with
          | ok u =>
            right
            have h1 : relayMeasure n (relayStep c n t onEnd s) =
                2 * (n - s.nextIdx) + s.inFlight.length := by
              rw [relayStep_end_ok hcs hin hfl hn he]
              exact relayMeasure_ended rfl
            rw [h1, relayMeasure_running hcs]
            omega
          | error e =>
            right
            have h1 : relayMeasure n (relayStep c n t onEnd s) =
                2 * (n - s.nextIdx) + s.inFlight.length := by
              rw [relayStep_end_err hcs hin hfl hn he]
              exact relayMeasure_failed rfl
            rw [h1, relayMeasure_running hcs]
            omega
        · exact Or.inl (relayStep_stuck hcs hin hfl hn)
      · have hkl : pickIdx s < s.inFlight.length :=
          Nat.mod_lt _ (Nat.pos_of_ne_zero hfl)
        have hslot : s.inFlight.getD (pickIdx s) (0, Except.ok []) =
            s.inFlight[pickIdx s] := List.getD_eq_getElem _ _ hkl
        cases hout : (s.inFlight[pickIdx s]).2 with
        | ok outs =>
          right
          have h1 : relayMeasure n (relayStep c n t onEnd s) =
              2 * (n - s.nextIdx) + (s.inFlight.take (pickIdx s) ++
                s.inFlight.drop (pickIdx s + 1)).length + 1 := by
            rw [relayStep_settle_ok hcs hin hfl hslot hout]
            exact relayMeasure_running hcs
          rw [h1, relayMeasure_running hcs, length_erase_at hkl]
          omega
        | error e =>
          right
          have h1 : relayMeasure n (relayStep c n t onEnd s) =
              2 * (n - s.nextIdx) + (s.inFlight.take (pickIdx s) ++
                s.inFlight.drop (pickIdx s + 1)).length := by
            rw [relayStep_settle_err hcs hin hfl hslot hout]
            exact relayMeasure_failed rfl
          rw [h1, relayMeasure_running hcs, length_erase_at hkl]
          omega

theorem relayIter_fix {m : Nat} (hm : relayMeasure n s ≤ m) :
    relayStep c n t onEnd ((relayStep c n t onEnd)^[m] s) =
      (relayStep c n t onEnd)^[m] s := by
  induction m generalizing s with
  | zero =>
    simp only [Function.iterate_zero, id_eq]
    rcases (relayStep_fix_or_lt s : relayStep c n t onEnd s = s ∨
        relayMeasure n (relayStep c n t onEnd s) < relayMeasure n s)
      with h1 | h2
    · exact h1
    · omega
  | succ m ih =>
    rcases (relayStep_fix_or_lt s : relayStep c n t onEnd s = s ∨
        relayMeasure n (relayStep c n t onEnd s) < relayMeasure n s)
      with h1 | h2
    · rw [Function.iterate_succ_apply, h1, Function.iterate_fixed h1]
      exact h1
    · rw [Function.iterate_succ_apply]
      exact ih (by omega)

theorem relayRun_fix {init : σ} (sched : List Nat) :
    relayStep c n t onEnd (relayRun c n t onEnd sched init) =
      relayRun c n t onEnd sched init := by
  have hm : relayMeasure n (relayInit sched init : RelayState β σ ε) ≤
      2 * n + 1 := by
    simp [relayMeasure, relayInit]
  exact relayIter_fix hm

/-- Main completion theorem for error-free runs: with at least one
concurrency slot, transforms that all settle successfully and a succeeding
end callback, the relay Ends having released the chunks of every item in
intake order, with the fully folded accumulator and no error events. -/
theorem relayRun_complete {init : σ} (hc : 1 ≤ c)
    (hok : ∀ i, i < n → ∃ l, outAt t init i = Except.ok l)
    (hend : onEnd (accAt t init n) = Except.ok ()) (sched : List Nat) :
    (relayRun c n t onEnd sched init).cstate = CompletionState.ended ∧
    (relayRun c n t onEnd sched init).output =
      ((List.range n).map (outListAt t init)).flatten ∧
    (relayRun c n t onEnd sched init).acc = accAt t init n ∧
    (relayRun c n t onEnd sched init).errors = [] ∧
    (relayRun c n t onEnd sched init).emitted = n := by
  have hInv : RelayInv c n t init (relayRun c n t onEnd sched init) :=
    relayInv_iter sched (2 * n + 1)
  have hNF : NotFailed (relayRun c n t onEnd sched init) :=
    notFailed_iter sched hok hend (2 * n + 1)
  have hfix : relayStep c n t onEnd (relayRun c n t onEnd sched init) =
      relayRun c n t onEnd sched init := relayRun_fix sched
  set s1 := relayRun c n t onEnd sched init with hs1
  have hcstate : s1.cstate = CompletionState.ended := by
    cases hcs : s1.cstate with
    | ended => rfl
    | failed e => exact absurd hcs (hNF e)
    | running =>
      exfalso
      by_cases hin : s1.nextIdx < n ∧ s1.inFlight.length < c
      · rw [relayStep_intake hcs hin.1 hin.2] at hfix
        have := congrArg RelayState.nextIdx hfix
        simp at this
      · by_cases hfl : s1.inFlight.length = 0
        · by_cases hn : s1.nextIdx = n
          · cases he : onEnd s1.acc with
            | ok u =>
              rw [relayStep_end_ok hcs hin hfl hn he] at hfix
              have := congrArg RelayState.cstate hfix
              simp at this
              rw [hcs] at this
              simp at this
            | error e =>
              rw [relayStep_end_err hcs hin hfl hn he] at hfix
              have := congrArg RelayState.cstate hfix
              simp at this
              rw [hcs] at this
              simp at this
          · have h1 : ¬s1.nextIdx < n := fun h2 => hin ⟨h2, by omega⟩
            have h2 := hInv.next_le
            omega
        · have hkl : pickIdx s1 < s1.inFlight.length :=
            Nat.mod_lt _ (Nat.pos_of_ne_zero hfl)
          have hslot : s1.inFlight.getD (pickIdx s1) (0, Except.ok []) =
              s1.inFlight[pickIdx s1] := List.getD_eq_getElem _ _ hkl
          cases hout : (s1.inFlight[pickIdx s1]).2 with
          | ok outs =>
            rw [relayStep_settle_ok hcs hin hfl hslot hout] at hfix
            have h1 := congrArg (fun st => st.inFlight.length) hfix
            simp only at h1
            rw [length_erase_at hkl] at h1
            omega
          | error e =>
            rw [relayStep_settle_err hcs hin hfl hslot hout] at hfix
            have h1 := congrArg (fun st => st.inFlight.length) hfix
            simp only at h1
            rw [length_erase_at hkl] at h1
            omega
  obtain ⟨hnx, hflnil, hqnil, hem⟩ := hInv.ended_done hcstate
  refine ⟨hcstate, ?_, ?_, ?_, hem⟩
  · rw [hInv.out_eq, hem]
  · rw [hInv.acc_eq, hnx]
  · exact hInv.err_nil (fun e he => by rw [hcstate] at he; simp at he)

/-! ## Specialization lemmas -/

theorem outListAt_mapT (fn : α → β) (xs : List α) (i : Nat) :
    outListAt (mapT fn xs) () i = ((xs.get? i).map fn).toList := rfl

theorem outAt_mapT_ok (fn : α → β) (xs : List α) (i : Nat) :
    outAt (mapT fn xs) () i = Except.ok (((xs.get? i).map fn).toList) := rfl

theorem map_flatten_take (fn : α → β) (xs : List α) :
    ∀ e, e ≤ xs.length →
      ((List.range e).map (outListAt (mapT fn xs) ())).flatten =
        (xs.take e).map fn := by
  intro e
  induction e with
  | zero => simp
  | succ e ih =>
    intro he
    have hel : e < xs.length := by omega
    rw [List.range_succ, List.map_append, List.flatten_append, ih (by omega),
      List.take_succ, List.getElem?_eq_getElem hel]
    simp only [outListAt_mapT, List.get?_eq_getElem?,
      List.getElem?_eq_getElem hel, Option.map_some, Option.toList_some,
      List.map_cons, List.map_nil, List.flatten_cons, List.flatten_nil,
      List.append_nil]
    simp
    have hel2 : e < (List.map fn xs).length := by simpa using hel
    rw [List.take_succ, List.getElem?_eq_getElem hel2]
    simp [List.getElem_map]

theorem outListAt_filterT (p : α → Bool) (xs : List α) (i : Nat) :
    outListAt (filterT p xs) () i =
      (match xs.get? i with
        | some x => if p x then [x] else []
        | none => []) := rfl

theorem outAt_filterT_ok (p : α → Bool) (xs : List α) (i : Nat) :
    outAt (filterT p xs) () i =
      Except.ok (match xs.get? i with
        | some x => if p x then [x] else []
        | none => []) := rfl

theorem outAt_reduceT_ok (f : γ → α → γ) (xs : List α) (init : γ) (i : Nat) :
    outAt (reduceT f xs) init i = Except.ok [] := rfl

theorem filter_flatten_take (p : α → Bool) (xs : List α) :
    ∀ e, e ≤ xs.length →
      ((List.range e).map (outListAt (filterT p xs) ())).flatten =
        (xs.take e).filter p := by
  intro e
  induction e with
  | zero => simp
  | succ e ih =>
    intro he
    have hel : e < xs.length := by
      omega
    rw [List.range_succ, List.map_append, List.flatten_append, ih (by omega),
      List.take_succ, List.getElem?_eq_getElem hel, List.filter_append]
    simp only [outListAt_filterT, List.get?_eq_getElem?,
      List.getElem?_eq_getElem hel, Option.toList_some, List.map_cons,
      List.map_nil, List.flatten_cons, List.flatten_nil, List.append_nil]
    by_cases hp : p xs[e]
    · simp [hp]
    · simp [hp]

theorem accAt_reduceT (f : γ → α → γ) (init : γ) (xs : List α) :
    ∀ k, k ≤ xs.length →
      accAt (reduceT f xs) init k = (xs.take k).foldl f init := by
  intro k
  induction k with
  | zero => simp [accAt]
  | succ k ih =>
    intro hk
    have hkl : k < xs.length := by omega
    have hstep : accAt (reduceT f xs) init (k + 1) =
        (reduceT f xs (accAt (reduceT f xs) init k) k).1 := rfl
    rw [hstep, ih (by omega), List.take_succ, List.getElem?_eq_getElem hkl,
      List.foldl_append]
    simp [reduceT, List.get?_eq_getElem?, List.getElem?_eq_getElem hkl]

theorem relayRun_output_eq {β2 σ2 : Type} (c2 n2 : Nat)
    (t2 : σ2 → Nat → σ2 × Except Unit (List β2))
    (onE : σ2 → Except Unit Unit) (init2 : σ2) (hc : 1 ≤ c2)
    (hok : ∀ i, i < n2 → ∃ l, outAt t2 init2 i = Except.ok l)
    (hend : onE (accAt t2 init2 n2) = Except.ok ()) (sched : List Nat) :
    (relayRun c2 n2 t2 onE sched init2).output =
      ((List.range n2).map (outListAt t2 init2)).flatten :=
  (relayRun_complete hc hok hend sched).2.1

theorem relayRun_acc_eq {β2 σ2 : Type} (c2 n2 : Nat)
    (t2 : σ2 → Nat → σ2 × Except Unit (List β2))
    (onE : σ2 → Except Unit Unit) (init2 : σ2) (hc : 1 ≤ c2)
    (hok : ∀ i, i < n2 → ∃ l, outAt t2 init2 i = Except.ok l)
    (hend : onE (accAt t2 init2 n2) = Except.ok ()) (sched : List Nat) :
    (relayRun c2 n2 t2 onE sched init2).acc = accAt t2 init2 n2 :=
  (relayRun_complete hc hok hend sched).2.2.1

theorem mapRun_output {c : Nat} (fn : α → β) (xs : List α) (hc : 1 ≤ c)
    (sched : List Nat) :
    (PromiseStreams.map fn xs c sched).output = xs.map fn := by
  rw [show PromiseStreams.map fn xs c sched =
    relayRun c xs.length (mapT fn xs) (fun _ => Except.ok ()) sched () from rfl]
  rw [relayRun_output_eq c xs.length (mapT fn xs) (fun _ => Except.ok ()) () hc
    (fun i _ => ⟨_, outAt_mapT_ok fn xs i⟩) rfl sched]
  rw [map_flatten_take fn xs xs.length (Nat.le_refl _), List.take_length]

theorem filterRun_output {c : Nat} (p : α → Bool) (xs : List α) (hc : 1 ≤ c)
    (sched : List Nat) :
    (PromiseStreams.filter p xs c sched).output = xs.filter p := by
  rw [show PromiseStreams.filter p xs c sched =
    relayRun c xs.length (filterT p xs) (fun _ => Except.ok ()) sched () from rfl]
  rw [relayRun_output_eq c xs.length (filterT p xs) (fun _ => Except.ok ()) ()
    hc (fun i _ => ⟨_, outAt_filterT_ok p xs i⟩) rfl sched]
  rw [filter_flatten_take p xs xs.length (Nat.le_refl _), List.take_length]

theorem reduceRun_acc {c : Nat} (f : γ → α → γ) (init : γ) (xs : List α)
    (hc : 1 ≤ c) (sched : List Nat) :
    (PromiseStreams.reduce f init xs c sched).acc = xs.foldl f init := by
  rw [show PromiseStreams.reduce f init xs c sched =
    relayRun c xs.length (reduceT f xs) (fun _ => Except.ok ()) sched init
      from rfl]
  rw [relayRun_acc_eq c xs.length (reduceT f xs) (fun _ => Except.ok ()) init
    hc (fun i _ => ⟨_, outAt_reduceT_ok f xs init i⟩) rfl sched]
  rw [accAt_reduceT f init xs xs.length (Nat.le_refl _), List.take_length]

/-! ## Settlement automata lemmas -/

theorem waitOnSignal_settled {st : Settle ε} (h : st ≠ Settle.pending)
    (sig : Sig γ ε) : waitOnSignal st sig = st := by
  cases st with
  | pending => exact absurd rfl h
  | resolved => rfl
  | rejected e => rfl

theorem foldl_waitOnSignal_settled {st : Settle ε} (h : st ≠ Settle.pending)
    (evs : List (Sig γ ε)) : evs.foldl waitOnSignal st = st := by
  induction evs with
  | nil => rfl
  | cons sig rest ih =>
    rw [List.foldl_cons, waitOnSignal_settled h]
    exact ih

theorem wait_eq_firstSignal (evs : List (Sig γ ε)) :
    wait evs = firstSignal evs := by
  induction evs with
  | nil => rfl
  | cons sig rest ih =>
    cases sig with
    | dat ch => exact ih
    | fin =>
      show rest.foldl waitOnSignal Settle.resolved = Settle.resolved
      exact foldl_waitOnSignal_settled (by simp) rest
    | err e =>
      show rest.foldl waitOnSignal (Settle.rejected e) = Settle.rejected e
      exact foldl_waitOnSignal_settled (by simp) rest

theorem collectOnSignal_settled {st : CSettle γ ε}
    (h : ∀ a, st ≠ CSettle.pending a) (sig : Sig γ ε) :
    collectOnSignal st sig = st := by
  cases st with
  | pending a => exact absurd rfl (h a)
  | resolved r => rfl
  | rejected e => rfl

theorem foldl_collectOnSignal_settled {st : CSettle γ ε}
    (h : ∀ a, st ≠ CSettle.pending a) (evs : List (Sig γ ε)) :
    evs.foldl collectOnSignal st = st := by
  induction evs with
  | nil => rfl
  | cons sig rest ih =>
    rw [List.foldl_cons, collectOnSignal_settled h]
    exact ih

theorem collect_kind_firstSignal (evs : List (Sig γ ε)) :
    ∀ acc, settleKind (evs.foldl collectOnSignal (CSettle.pending acc)) =
      firstSignal evs := by
  induction evs with
  | nil =>
    intro acc
    rfl
  | cons sig rest ih =>
    intro acc
    cases sig with
    | dat ch => exact ih (acc ++ ch)
    | fin =>
      show settleKind (rest.foldl collectOnSignal (CSettle.resolved acc)) =
        Settle.resolved
      rw [foldl_collectOnSignal_settled (by simp)]
      rfl
    | err e =>
      show settleKind (rest.foldl collectOnSignal (CSettle.rejected e)) =
        Settle.rejected e
      rw [foldl_collectOnSignal_settled (by simp)]
      rfl

theorem collect_resolves_concat (cs : List (List γ)) :
    ∀ acc, (((cs.map Sig.dat ++ [Sig.fin]) : List (Sig γ ε)).foldl
        collectOnSignal (CSettle.pending acc)) =
      CSettle.resolved (acc ++ cs.flatten) := by
  induction cs with
  | nil =>
    intro acc
    simp
    rfl
  | cons ch cs ih =>
    intro acc
    show ((cs.map Sig.dat ++ [Sig.fin]).foldl collectOnSignal
      (CSettle.pending (acc ++ ch))) = CSettle.resolved (acc ++ (ch :: cs).flatten)
    rw [ih (acc ++ ch)]
    simp

theorem pipeOnSignal_settled {st : Settle ε} (h : st ≠ Settle.pending)
    (sig : PSig γ ε) : pipeOnSignal st sig = st := by
  cases st with
  | pending => exact absurd rfl h
  | resolved => rfl
  | rejected e => rfl

theorem foldl_pipeOnSignal_settled {st : Settle ε} (h : st ≠ Settle.pending)
    (evs : List (PSig γ ε)) : evs.foldl pipeOnSignal st = st := by
  induction evs with
  | nil => rfl
  | cons sig rest ih =>
    rw [List.foldl_cons, pipeOnSignal_settled h]
    exact ih

theorem pipe_eq_firstSignal (evs : List (PSig γ ε)) :
    pipe evs = pipeFirstSignal evs := by
  induction evs with
  | nil => rfl
  | cons sig rest ih =>
    cases sig with
    | src s0 =>
      cases s0 with
      | dat ch => exact ih
      | fin =>
        show rest.foldl pipeOnSignal Settle.resolved = Settle.resolved
        exact foldl_pipeOnSignal_settled (by simp) rest
      | err e =>
        show rest.foldl pipeOnSignal (Settle.rejected e) = Settle.rejected e
        exact foldl_pipeOnSignal_settled (by simp) rest
    | dst s0 =>
      cases s0 with
      | dat ch => exact ih
      | fin => exact ih
      | err e =>
        show rest.foldl pipeOnSignal (Settle.rejected e) = Settle.rejected e
        exact foldl_pipeOnSignal_settled (by simp) rest

theorem pipelineOnSignal_settled {k : Nat} {st : PipeDelivery γ ε}
    (h : st.settle ≠ Settle.pending) (ev : Nat × Sig γ ε) :
    pipelineOnSignal k st ev = st := by
  obtain ⟨stl, dl⟩ := st
  cases stl with
  | pending => exact absurd rfl h
  | resolved => rfl
  | rejected e => rfl

theorem foldl_pipelineOnSignal_settled {k : Nat} {st : PipeDelivery γ ε}
    (h : st.settle ≠ Settle.pending) (evs : List (Nat × Sig γ ε)) :
    evs.foldl (pipelineOnSignal k) st = st := by
  induction evs with
  | nil => rfl
  | cons ev rest ih =>
    rw [List.foldl_cons, pipelineOnSignal_settled h]
    exact ih

theorem datTo_cons_dat_self (k : Nat) (ch : List γ)
    (rest : List (Nat × Sig γ ε)) :
    datTo k ((k, Sig.dat ch) :: rest) = ch :: datTo k rest := by
  simp [datTo]

theorem pipeline_clean_prefix (k : Nat) (pre : List (Nat × Sig γ ε)) :
    ∀ d : List (List γ),
      (∀ ev ∈ pre, (∀ e2, ev.2 ≠ Sig.err e2) ∧ ev ≠ (k, Sig.fin)) →
      pre.foldl (pipelineOnSignal k) ⟨Settle.pending, d⟩ =
        ⟨Settle.pending, d ++ datTo k pre⟩ := by
  induction pre with
  | nil =>
    intro d _
    simp [datTo]
  | cons ev rest ih =>
    intro d h
    obtain ⟨i, sig⟩ := ev
    have hrest : ∀ ev ∈ rest, (∀ e2, ev.2 ≠ Sig.err e2) ∧ ev ≠ (k, Sig.fin) :=
      fun ev hev => h ev (List.mem_cons_of_mem _ hev)
    cases sig with
    | dat ch =>
      by_cases hik : i = k
      · subst hik
        rw [List.foldl_cons]
        show rest.foldl (pipelineOnSignal i)
            (if i = i then ⟨Settle.pending, d ++ [ch]⟩ else ⟨Settle.pending, d⟩) =
          ⟨Settle.pending, d ++ datTo i ((i, Sig.dat ch) :: rest)⟩
        rw [if_pos rfl, ih (d ++ [ch]) hrest, datTo_cons_dat_self]
        simp
      · rw [List.foldl_cons]
        show rest.foldl (pipelineOnSignal k)
            (if i = k then ⟨Settle.pending, d ++ [ch]⟩ else ⟨Settle.pending, d⟩) =
          ⟨Settle.pending, d ++ datTo k ((i, Sig.dat ch) :: rest)⟩
        rw [if_neg hik, ih d hrest]
        simp [datTo, hik]
    | fin =>
      have hik : i ≠ k := by
        intro he
        exact (h (i, Sig.fin) (List.mem_cons_self _ _)).2 (by rw [he])
      rw [List.foldl_cons]
      show rest.foldl (pipelineOnSignal k)
          (if i = k then ⟨Settle.resolved, d⟩ else ⟨Settle.pending, d⟩) =
        ⟨Settle.pending, d ++ datTo k ((i, Sig.fin) :: rest)⟩
      rw [if_neg hik, ih d hrest]
      simp [datTo]
    | err e2 =>
      exact absurd rfl ((h (i, Sig.err e2) (List.mem_cons_self _ _)).1 e2)

/-! ## Further relay step facts -/

theorem relayStep_no_intake_of_full (hfull : c ≤ s.inFlight.length) :
    (relayStep c n t onEnd s).nextIdx = s.nextIdx := by
  cases hcs : s.cstate with
  | ended => rw [relayStep_ended hcs]
  | failed e =>
    by_cases hfl : s.inFlight.length = 0
    · rw [relayStep_failed_done hcs hfl]
    · rw [relayStep_failed_settle hcs hfl]
  | running =>
    have hin : ¬(s.nextIdx < n ∧ s.inFlight.length < c) := by
      rintro ⟨-, h2⟩
      omega
    by_cases hfl : s.inFlight.length = 0
    · by_cases hn : s.nextIdx = n
      · cases he : onEnd s.acc with
        | ok u => rw [relayStep_end_ok hcs hin hfl hn he]
        | error e => rw [relayStep_end_err hcs hin hfl hn he]
      · rw [relayStep_stuck hcs hin hfl hn]
    · have hkl : pickIdx s < s.inFlight.length :=
        Nat.mod_lt _ (Nat.pos_of_ne_zero hfl)
      have hslot : s.inFlight.getD (pickIdx s) (0, Except.ok []) =
          s.inFlight[pickIdx s] := List.getD_eq_getElem _ _ hkl
      cases hout : (s.inFlight[pickIdx s]).2 with
      | ok outs => rw [relayStep_settle_ok hcs hin hfl hslot hout]
      | error e => rw [relayStep_settle_err hcs hin hfl hslot hout]

theorem relayStep_failed_frozen {e : ε}
    (hf : s.cstate = CompletionState.failed e) :
    (relayStep c n t onEnd s).nextIdx = s.nextIdx ∧
    (relayStep c n t onEnd s).output = s.output ∧
    (relayStep c n t onEnd s).outQueue = s.outQueue ∧
    (relayStep c n t onEnd s).emitted = s.emitted ∧
    (relayStep c n t onEnd s).errors = s.errors ∧
    (relayStep c n t onEnd s).cstate = s.cstate := by
  by_cases hfl : s.inFlight.length = 0
  · rw [relayStep_failed_done hf hfl]
    exact ⟨rfl, rfl, rfl, rfl, rfl, rfl⟩
  · rw [relayStep_failed_settle hf hfl]
    exact ⟨rfl, rfl, rfl, rfl, rfl, rfl⟩

/-! ## Claim theorems -/

/-- C1: for every finite input sequence, every concurrency limit
`concurrent ≥ 1` and every settlement schedule (so regardless of the order
in which the individual transform promises settle), the final output of
`map(fn)` is the transform applied to each input in original arrival order;
moreover at every scheduling step the output released so far is exactly the
prefix of the first `emitted` transformed inputs, so output N is not
released downstream until outputs 1..N-1 have been released. -/
theorem map_output_preserves_order {α β : Type} (fn : α → β) (xs : List α)
    (c : Nat) (hc : 1 ≤ c) (sched : List Nat) (k : Nat) :
    (mapIter fn xs c sched k).output =
      (xs.map fn).take ((mapIter fn xs c sched k).emitted) ∧
    (PromiseStreams.map fn xs c sched).output = xs.map fn := by
  constructor
  · have hInv : RelayInv c xs.length (mapT fn xs) ()
        (mapIter fn xs c sched k) := relayInv_iter sched k
    have hem : (mapIter fn xs c sched k).emitted ≤ xs.length :=
      Nat.le_trans hInv.em_le hInv.next_le
    rw [hInv.out_eq, map_flatten_take fn xs _ hem, List.map_take]
  · exact mapRun_output fn xs hc sched

theorem map_output_preserves_order_witness :
    1 ≤ 2 ∧
    ((mapIter (fun x => x * 2) [1, 2, 3] 2 [1, 0, 2] 4).output =
        ([1, 2, 3].map (fun x => x * 2)).take
          ((mapIter (fun x => x * 2) [1, 2, 3] 2 [1, 0, 2] 4).emitted) ∧
      (PromiseStreams.map (fun x => x * 2) [1, 2, 3] 2 [1, 0, 2]).output =
        [1, 2, 3].map (fun x => x * 2)) :=
  ⟨by decide, map_output_preserves_order (fun x => x * 2) [1, 2, 3] 2
    (by decide) [1, 0, 2] 4⟩

/-- C2: for every relay stream (`through` and its `map`/`filter`/`reduce`
specializations) with `options.concurrent` as the limit, the number of
transforms that have started but not yet settled satisfies
`0 ≤ inFlight ≤ limit` at every scheduling step, and when the window is full
a step starts no new transform (the arriving items stay buffered). -/
theorem options_concurrency_window_bound {β σ ε : Type} (o : Options)
    (n : Nat) (t : σ → Nat → σ × Except ε (List β))
    (onEnd : σ → Except ε Unit) (sched : List Nat) (init : σ) (k : Nat) :
    0 ≤ (relayIter o.concurrent n t onEnd sched init k).inFlight.length ∧
    (relayIter o.concurrent n t onEnd sched init k).inFlight.length ≤
      o.concurrent ∧
    (o.concurrent ≤
        (relayIter o.concurrent n t onEnd sched init k).inFlight.length →
      (relayStep o.concurrent n t onEnd
          (relayIter o.concurrent n t onEnd sched init k)).nextIdx =
        (relayIter o.concurrent n t onEnd sched init k).nextIdx) := by
  have hInv : RelayInv o.concurrent n t init
      (relayIter o.concurrent n t onEnd sched init k) := relayInv_iter sched k
  exact ⟨Nat.zero_le _, hInv.flight_le,
    fun hfull => relayStep_no_intake_of_full hfull⟩

theorem options_concurrency_window_bound_witness :
    0 ≤ (relayIter 1 2 (mapT (fun x => x + 1) [5, 6]) (fun _ => Except.ok ())
        [0] () 1).inFlight.length ∧
    (relayIter 1 2 (mapT (fun x => x + 1) [5, 6]) (fun _ => Except.ok ())
        [0] () 1).inFlight.length ≤ 1 ∧
    (relayStep 1 2 (mapT (fun x => x + 1) [5, 6]) (fun _ => Except.ok ())
        (relayIter 1 2 (mapT (fun x => x + 1) [5, 6]) (fun _ => Except.ok ())
          [0] () 1)).nextIdx =
      (relayIter 1 2 (mapT (fun x => x + 1) [5, 6]) (fun _ => Except.ok ())
        [0] () 1).nextIdx :=
  ⟨(options_concurrency_window_bound ⟨1⟩ 2 (mapT (fun x => x + 1) [5, 6])
      (fun _ => Except.ok ()) [0] () 1).1,
   (options_concurrency_window_bound ⟨1⟩ 2 (mapT (fun x => x + 1) [5, 6])
      (fun _ => Except.ok ()) [0] () 1).2.1,
   (options_concurrency_window_bound ⟨1⟩ 2 (mapT (fun x => x + 1) [5, 6])
      (fun _ => Except.ok ()) [0] () 1).2.2 (by decide)⟩

/-- C3: for every input sequence, fold function and configured
`concurrent > 1`, `reduce` produces the same final accumulator as the run
with `concurrent = 1` under any settlement schedules, namely the strictly
sequential left fold of the inputs: the fold steps are chained on the single
sequential accumulator dependency, so folds are serialized regardless of
the configured concurrency. -/
theorem reduce_concurrency_irrelevant {α γ : Type} (f : γ → α → γ)
    (init : γ) (xs : List α) (c : Nat) (hc : 1 < c)
    (sched sched2 : List Nat) :
    (PromiseStreams.reduce f init xs c sched).acc =
      (PromiseStreams.reduce f init xs 1 sched2).acc ∧
    (PromiseStreams.reduce f init xs c sched).acc = xs.foldl f init := by
  have h1 := reduceRun_acc (c := c) f init xs (by omega) sched
  have h2 := reduceRun_acc (c := 1) f init xs (Nat.le_refl 1) sched2
  exact ⟨by rw [h1, h2], h1⟩

theorem reduce_concurrency_irrelevant_witness :
    1 < 3 ∧
    ((PromiseStreams.reduce (fun a x => a * 10 + x) 0 [1, 2, 3] 3
        [2, 0, 1]).acc =
      (PromiseStreams.reduce (fun a x => a * 10 + x) 0 [1, 2, 3] 1 []).acc ∧
     (PromiseStreams.reduce (fun a x => a * 10 + x) 0 [1, 2, 3] 3
        [2, 0, 1]).acc = [1, 2, 3].foldl (fun a x => a * 10 + x) 0) :=
  ⟨by decide, reduce_concurrency_irrelevant (fun a x => a * 10 + x) 0
    [1, 2, 3] 3 (by decide) [2, 0, 1] []⟩

/-- C4: the promises returned by `wait`, `collect` and `pipe` settle exactly
once: over any event trace the settlement is determined by the first end or
error signal (resolve on end, reject on error; for `pipe`, source end
resolves and an error on either end rejects), and once settled every
subsequent signal leaves the settlement unchanged, so no second settlement
ever occurs. -/
theorem wait_collect_pipe_settle_once {γ ε : Type} (evs : List (Sig γ ε))
    (pevs : List (PSig γ ε)) (st : Settle ε) (cst : CSettle γ ε)
    (hst : st ≠ Settle.pending) (hcst : ∀ a, cst ≠ CSettle.pending a) :
    wait evs = firstSignal evs ∧
    settleKind (collect evs) = firstSignal evs ∧
    pipe pevs = pipeFirstSignal pevs ∧
    evs.foldl waitOnSignal st = st ∧
    evs.foldl collectOnSignal cst = cst ∧
    pevs.foldl pipeOnSignal st = st :=
  ⟨wait_eq_firstSignal evs, collect_kind_firstSignal evs [],
   pipe_eq_firstSignal pevs, foldl_waitOnSignal_settled hst evs,
   foldl_collectOnSignal_settled hcst evs, foldl_pipeOnSignal_settled hst pevs⟩

theorem wait_collect_pipe_settle_once_witness :
    wait [Sig.dat ['a'], Sig.fin, Sig.err 5] =
      firstSignal [Sig.dat ['a'], Sig.fin, Sig.err 5] ∧
    settleKind (collect [Sig.dat ['a'], Sig.fin, Sig.err 5]) =
      firstSignal [Sig.dat ['a'], Sig.fin, Sig.err 5] ∧
    pipe ([PSig.dst Sig.fin, PSig.src Sig.fin, PSig.src (Sig.err 3)] :
        List (PSig Char Nat)) =
      pipeFirstSignal ([PSig.dst Sig.fin, PSig.src Sig.fin,
        PSig.src (Sig.err 3)] : List (PSig Char Nat)) ∧
    [Sig.dat ['a'], Sig.fin, Sig.err 5].foldl waitOnSignal Settle.resolved =
      Settle.resolved ∧
    [Sig.dat ['a'], Sig.fin, Sig.err 5].foldl collectOnSignal
      (CSettle.rejected 7) = CSettle.rejected 7 ∧
    ([PSig.dst Sig.fin, PSig.src Sig.fin, PSig.src (Sig.err 3)] :
        List (PSig Char Nat)).foldl
      pipeOnSignal Settle.resolved = Settle.resolved :=
  wait_collect_pipe_settle_once [Sig.dat ['a'], Sig.fin, Sig.err 5]
    ([PSig.dst Sig.fin, PSig.src Sig.fin, PSig.src (Sig.err 3)] :
      List (PSig Char Nat))
    Settle.resolved (CSettle.rejected 7) (by simp) (fun a => by simp)

/-- C5: in the spec model, pushing a promise forwards its value downstream
and yields an acknowledgement promise resolving exactly at the forwarding
time — this is the behaviour the doc comment of `push` documents; however
the declaration src/index.d.ts line 18 types the promise-argument overload
of `push` as returning `void`, which is not a promise type, contradicting
its own doc comment ("It returns a promise that resolves when the pushed
promise resolves, to make it possible to use return this.push(data)"). -/
theorem push_promise_ack_and_type_mismatch {α : Type}
    (ds : List (TimedVal α)) (p : TimedVal α) :
    (push ds p).1 = ds ++ [p] ∧
    (push ds p).2.time = p.time ∧
    pushDocumentedReturnType ≠ pushPromiseOverloadReturnType ∧
    ∀ u, TsType.promiseT u ≠ pushPromiseOverloadReturnType := by
  refine ⟨rfl, rfl, ?_, ?_⟩
  · intro h
    simp [pushDocumentedReturnType, pushPromiseOverloadReturnType] at h
  · intro u h
    simp [pushPromiseOverloadReturnType] at h

/-- C6: the relay's error policy.  (a) Error events agree with the Failed
state: a reachable Failed state carries exactly the one error event with
the first error, and a reachable non-Failed state has emitted no error
event.  (b) Once Failed, a scheduling step starts no further transforms,
emits nothing (results of settling in-flight transforms are discarded), and
swallows all subsequent errors.  (c) A rejecting `onEnd` callback and (d) a
rejecting transform settlement each transition the relay to Failed and emit
that error as the single error event. -/
theorem relay_error_policy {β σ ε : Type} (c n : Nat)
    (t : σ → Nat → σ × Except ε (List β)) (onEnd : σ → Except ε Unit)
    (sched : List Nat) (init : σ) (k k2 : Nat)
    (s2 s3 s4 : RelayState β σ ε) (e e2 e3 e4 : ε) (i4 : Nat)
    (hfk : (relayIter c n t onEnd sched init k).cstate =
      CompletionState.failed e2)
    (hnf2 : ∀ e5, (relayIter c n t onEnd sched init k2).cstate ≠
      CompletionState.failed e5)
    (hf : s2.cstate = CompletionState.failed e)
    (hrun3 : s3.cstate = CompletionState.running)
    (hn3 : s3.nextIdx = n) (hfl3 : s3.inFlight = [])
    (hend3 : onEnd s3.acc = Except.error e3)
    (hrun4 : s4.cstate = CompletionState.running)
    (hni4 : ¬(s4.nextIdx < n ∧ s4.inFlight.length < c))
    (hfl4 : s4.inFlight = [(i4, Except.error e4)]) :
    (relayIter c n t onEnd sched init k).errors = [e2] ∧
    (relayIter c n t onEnd sched init k2).errors = [] ∧
    (relayStep c n t onEnd s2).nextIdx = s2.nextIdx ∧
    (relayStep c n t onEnd s2).output = s2.output ∧
    (relayStep c n t onEnd s2).outQueue = s2.outQueue ∧
    (relayStep c n t onEnd s2).emitted = s2.emitted ∧
    (relayStep c n t onEnd s2).errors = s2.errors ∧
    (relayStep c n t onEnd s2).cstate = s2.cstate ∧
    (relayStep c n t onEnd s3).cstate = CompletionState.failed e3 ∧
    (relayStep c n t onEnd s3).errors = s3.errors ++ [e3] ∧
    (relayStep c n t onEnd s4).cstate = CompletionState.failed e4 ∧
    (relayStep c n t onEnd s4).errors = s4.errors ++ [e4] := by
  have hInvk : RelayInv c n t init (relayIter c n t onEnd sched init k) :=
    relayInv_iter sched k
  have hInvk2 : RelayInv c n t init (relayIter c n t onEnd sched init k2) :=
    relayInv_iter sched k2
  have hfrozen : (relayStep c n t onEnd s2).nextIdx = s2.nextIdx ∧
      (relayStep c n t onEnd s2).output = s2.output ∧
      (relayStep c n t onEnd s2).outQueue = s2.outQueue ∧
      (relayStep c n t onEnd s2).emitted = s2.emitted ∧
      (relayStep c n t onEnd s2).errors = s2.errors ∧
      (relayStep c n t onEnd s2).cstate = s2.cstate :=
    relayStep_failed_frozen hf
  have hfl3len : s3.inFlight.length = 0 := by
    rw [hfl3]
    rfl
  have hni3 : ¬(s3.nextIdx < n ∧ s3.inFlight.length < c) := by
    rintro ⟨h1, -⟩
    rw [hn3] at h1
    omega
  have hstep3 := relayStep_end_err (t := t) hrun3 hni3 hfl3len hn3 hend3
  have hfl4len : s4.inFlight.length ≠ 0 := by
    rw [hfl4]
    simp
  have hpick4 : pickIdx s4 = 0 := by
    rw [pickIdx, hfl4]
    simp only [List.length_cons, List.length_nil]
    omega
  have hslot4 : s4.inFlight.getD (pickIdx s4) (0, Except.ok []) =
      (i4, Except.error e4) := by
    rw [hpick4, hfl4]
    rfl
  have hstep4 : relayStep c n t onEnd s4 =
      { s4 with sched := s4.sched.tail,
                inFlight := s4.inFlight.take (pickIdx s4) ++
                  s4.inFlight.drop (pickIdx s4 + 1),
                cstate := CompletionState.failed e4,
                errors := s4.errors ++ [e4] } :=
    relayStep_settle_err hrun4 hni4 hfl4len hslot4 rfl
  refine ⟨hInvk.err_eq e2 hfk, hInvk2.err_nil hnf2, hfrozen.1, hfrozen.2.1,
    hfrozen.2.2.1, hfrozen.2.2.2.1, hfrozen.2.2.2.2.1, hfrozen.2.2.2.2.2,
    ?_, ?_, ?_, ?_⟩
  · rw [hstep3]
  · rw [hstep3]
  · rw [hstep4]
  · rw [hstep4]

theorem relay_error_policy_witness :
    (relayIter 2 3 tFail endFail [1, 1] () 7).errors = [7] ∧
    (relayIter 2 3 tFail endFail [1, 1] () 0).errors = [] ∧
    (relayStep 2 3 tFail endFail failedProbe).nextIdx = failedProbe.nextIdx ∧
    (relayStep 2 3 tFail endFail failedProbe).output = failedProbe.output ∧
    (relayStep 2 3 tFail endFail failedProbe).outQueue =
      failedProbe.outQueue ∧
    (relayStep 2 3 tFail endFail failedProbe).emitted = failedProbe.emitted ∧
    (relayStep 2 3 tFail endFail failedProbe).errors = failedProbe.errors ∧
    (relayStep 2 3 tFail endFail failedProbe).cstate = failedProbe.cstate ∧
    (relayStep 2 3 tFail endFail endProbe).cstate =
      CompletionState.failed 9 ∧
    (relayStep 2 3 tFail endFail endProbe).errors = endProbe.errors ++ [9] ∧
    (relayStep 2 3 tFail endFail slotProbe).cstate =
      CompletionState.failed 5 ∧
    (relayStep 2 3 tFail endFail slotProbe).errors =
      slotProbe.errors ++ [5] :=
  relay_error_policy 2 3 tFail endFail [1, 1] () 7 0 failedProbe endProbe
    slotProbe 7 7 9 5 2 (by decide)
    (fun e5 h => by simp [relayIter, relayInit] at h)
    (by decide) rfl rfl rfl rfl rfl (by decide) rfl

/-- C7: for every pipeline with sink stage `k`, if the events before the
first error contain no error and no final-stage end, then the aggregate
promise rejects with the original error of the erroring stage, the sink
receives no writes after that error (abort propagation), and with a clean
prefix followed by the final stage's end the aggregate promise resolves. -/
theorem pipeline_error_policy {γ ε : Type} (k j : Nat) (e : ε)
    (pre post post2 : List (Nat × Sig γ ε))
    (hpre : ∀ ev ∈ pre, (∀ e2, ev.2 ≠ Sig.err e2) ∧ ev ≠ (k, Sig.fin)) :
    (pipeline k (pre ++ (j, Sig.err e) :: post)).settle = Settle.rejected e ∧
    (pipeline k (pre ++ (j, Sig.err e) :: post)).delivered = datTo k pre ∧
    (pipeline k (pre ++ (k, Sig.fin) :: post2)).settle = Settle.resolved := by
  have hclean := pipeline_clean_prefix k pre [] hpre
  have h1 : pipeline k (pre ++ (j, Sig.err e) :: post) =
      ⟨Settle.rejected e, [] ++ datTo k pre⟩ := by
    rw [pipeline, List.foldl_append, hclean, List.foldl_cons]
    show post.foldl (pipelineOnSignal k)
      ⟨Settle.rejected e, [] ++ datTo k pre⟩ = _
    rw [foldl_pipelineOnSignal_settled (by simp)]
  have h2 : pipeline k (pre ++ (k, Sig.fin) :: post2) =
      ⟨Settle.resolved, [] ++ datTo k pre⟩ := by
    rw [pipeline, List.foldl_append, hclean, List.foldl_cons]
    show post2.foldl (pipelineOnSignal k)
      (if k = k then ⟨Settle.resolved, [] ++ datTo k pre⟩
        else ⟨Settle.pending, [] ++ datTo k pre⟩) = _
    rw [if_pos rfl, foldl_pipelineOnSignal_settled (by simp)]
  rw [h1, h2]
  exact ⟨rfl, by simp, rfl⟩

theorem pipeline_error_policy_witness :
    (pipeline 2 ([((0 : Nat), Sig.dat [(1 : Nat)]), (2, Sig.dat [2])] ++
        (1, Sig.err (9 : Nat)) :: [(2, Sig.dat [3])])).settle =
      Settle.rejected 9 ∧
    (pipeline 2 ([((0 : Nat), Sig.dat [(1 : Nat)]), (2, Sig.dat [2])] ++
        (1, Sig.err (9 : Nat)) :: [(2, Sig.dat [3])])).delivered =
      datTo 2 ([(0, Sig.dat [1]), (2, Sig.dat [2])] :
        List (Nat × Sig Nat Nat)) ∧
    (pipeline 2 (([((0 : Nat), Sig.dat [(1 : Nat)]), (2, Sig.dat [2])] ++
        (2, Sig.fin) :: []) : List (Nat × Sig Nat Nat))).settle =
      Settle.resolved :=
  pipeline_error_policy 2 1 9 [(0, Sig.dat [1]), (2, Sig.dat [2])]
    [(2, Sig.dat [3])] []
    (by
      intro ev hev
      fin_cases hev <;> exact ⟨fun e2 h => by simp at h, by decide⟩)

/-- C8: for every input sequence, predicate, concurrency limit ≥ 1 and
settlement schedule, `filter` finally emits exactly the original unmodified
items whose predicate resolved true, in their original relative order, and
at every scheduling step the output released so far is the filtering of the
first `emitted` inputs, a prefix of the final filtered sequence. -/
theorem filter_output_preserves_order {α : Type} (p : α → Bool)
    (xs : List α) (c : Nat) (hc : 1 ≤ c) (sched : List Nat) (k : Nat) :
    (filterIter p xs c sched k).output =
      (xs.take ((filterIter p xs c sched k).emitted)).filter p ∧
    (PromiseStreams.filter p xs c sched).output = xs.filter p := by
  constructor
  · have hInv : RelayInv c xs.length (filterT p xs) ()
        (filterIter p xs c sched k) := relayInv_iter sched k
    have hem : (filterIter p xs c sched k).emitted ≤ xs.length :=
      Nat.le_trans hInv.em_le hInv.next_le
    rw [hInv.out_eq, filter_flatten_take p xs _ hem]
  · exact filterRun_output p xs hc sched

theorem filter_output_preserves_order_witness :
    1 ≤ 2 ∧
    ((filterIter (fun x => x % 2 == 1) [1, 2, 3, 4, 5] 2 [1, 0, 1, 0] 5).output =
        ([1, 2, 3, 4, 5].take
          ((filterIter (fun x => x % 2 == 1) [1, 2, 3, 4, 5] 2
            [1, 0, 1, 0] 5).emitted)).filter (fun x => x % 2 == 1) ∧
      (PromiseStreams.filter (fun x => x % 2 == 1) [1, 2, 3, 4, 5] 2
          [1, 0, 1, 0]).output =
        [1, 2, 3, 4, 5].filter (fun x => x % 2 == 1)) :=
  ⟨by decide, filter_output_preserves_order (fun x => x % 2 == 1)
    [1, 2, 3, 4, 5] 2 (by decide) [1, 0, 1, 0] 5⟩

/-- C9: `collect` on a stream that emits a finite sequence of chunks and
then ends resolves with the in-order concatenation of the chunks (the
string concatenation in string mode, the binary concatenation in buffer
mode, both modelled as sequences over the chunk alphabet); in particular a
stream emitting "a", "b", "c" yields "abc". -/
theorem collect_concatenates {γ ε : Type} (cs : List (List γ)) :
    (collect (cs.map Sig.dat ++ [Sig.fin]) : CSettle γ ε) =
      CSettle.resolved cs.flatten ∧
    (collect [Sig.dat ['a'], Sig.dat ['b'], Sig.dat ['c'], Sig.fin] :
        CSettle Char Unit) =
      CSettle.resolved ['a', 'b', 'c'] := by
  constructor
  · have h := collect_resolves_concat (ε := ε) cs []
    simpa [collect] using h
  · rfl

/-- C10: every promise stream also exposes `map`, `filter` and `reduce` as
instance methods: `s.map fn` (resp. `s.filter p`, `s.reduce f init`)
creates a new promise stream of the corresponding kind with `s` piped into
it and returns it, and the created stream emits (resp. resolves with)
exactly what the corresponding free combinator produces on `s`'s items, so
stages compose by method chaining without the free pipe/pipeline helpers. -/
theorem stream_methods_compose {α : Type} (s : PStream α) (fn : α → α)
    (p : α → Bool) (f : α → α → α) (init : α) :
    s.map fn = PStream.mapStage s fn ∧
    (s.map fn).emits = s.emits.map fn ∧
    s.filter p = PStream.filterStage s p ∧
    (s.filter p).emits = s.emits.filter p ∧
    (s.reduce f init).promiseVal = s.emits.foldl f init := by
  refine ⟨rfl, ?_, rfl, ?_, ?_⟩
  · show (PromiseStreams.map fn s.emits 1 []).output = s.emits.map fn
    exact mapRun_output fn s.emits (Nat.le_refl 1) []
  · show (PromiseStreams.filter p s.emits 1 []).output = s.emits.filter p
    exact filterRun_output p s.emits (Nat.le_refl 1) []
  · show (PromiseStreams.reduce f init s.emits 1 []).acc =
      s.emits.foldl f init
    exact reduceRun_acc f init s.emits (Nat.le_refl 1) []

end PromiseStreams
